import Mathlib

set_option maxHeartbeats 1000000

namespace Flagconf

/-- Leaf values of the scalar kinds the binder's type switch handles, restricted to
the kinds exercised by the repository (bool, int — covering Go's 64-bit `int`/`int64` —
and string), together with the two settable list types `Ints` and `Strings`
from flagconf.go. -/
inductive Val where
  | vbool : Bool → Val
  | vint : Int → Val
  | vstr : String → Val
  | vints : List Int → Val
  | vstrs : List String → Val
deriving DecidableEq, Repr

/-- The semantic type tag a registered flag carries (which flagset.XVar or
flagset.Var call registerFlags picked for the leaf). -/
inductive FKind where
  | kbool : FKind
  | kint : FKind
  | kstr : FKind
  | kints : FKind
  | kstrs : FKind
deriving DecidableEq, Repr

def kindOf : Val → FKind
  | .vbool _ => .kbool
  | .vint _ => .kint
  | .vstr _ => .kstr
  | .vints _ => .kints
  | .vstrs _ => .kstrs

/-- Zero value of a Go value of the leaf's type (what reflect.New produces). -/
def zeroVal : Val → Val
  | .vbool _ => .vbool false
  | .vint _ => .vint 0
  | .vstr _ => .vstr ""
  | .vints _ => .vints []
  | .vstrs _ => .vstrs []

/-- Per-field metadata visible to reflection in registerFlags: the field name,
the `flag`, `toml` and `desc` struct tags (none when the tag is absent),
whether the field is embedded (anonymous), and whether reflect can set it
(false for unexported fields). -/
structure FieldMeta where
  name : String
  flagTag : Option String
  tomlTag : Option String
  descTag : Option String
  anon : Bool
  canSet : Bool
deriving DecidableEq, Repr

/-- A reflected Go value as registerFlags walks it: a leaf scalar/settable,
a struct (encoded as an `fnil`/`fcons` chain of fields), a pointer to a struct
(`ptrRec fields isNil`; a nil pointer carries the shape of its pointee type),
or a value of a type the switch in registerFlags does not handle. -/
inductive FVal where
  | leaf : Val → FVal
  | fnil : FVal
  | fcons : FieldMeta → FVal → FVal → FVal
  | sub : FVal → FVal
  | ptrRec : FVal → Bool → FVal
  | unsupported : String → FVal
deriving DecidableEq, Repr

/-- Zero value of a reflected value: scalar zeroes, recursively zeroed structs,
nil pointers. Models what reflect.New(field.Type().Elem()) yields for the pointee. -/
def zeroF : FVal → FVal
  | .leaf v => .leaf (zeroVal v)
  | .fnil => .fnil
  | .fcons m v r => .fcons m (zeroF v) (zeroF r)
  | .sub g => .sub (zeroF g)
  | .ptrRec g _ => .ptrRec (zeroF g) true
  | .unsupported t => .unsupported t

/-- Field lookup by declaration index in a struct's field chain. -/
def fgetIdx : FVal → Nat → Option (FieldMeta × FVal)
  | .fcons m v _, 0 => some (m, v)
  | .fcons _ _ r, n+1 => fgetIdx r n
  | _, _ => none

/-- Replace the value stored in field `n` of a struct's field chain. -/
def fsetIdx : FVal → Nat → FVal → FVal
  | .fcons m _ r, 0, w => .fcons m w r
  | .fcons m v r, n+1, w => .fcons m v (fsetIdx r n w)
  | f, _, _ => f

/-- Read the value at a field-index path, descending through nested structs and
through pointers-to-struct (a registered flag's stored address is modeled as
such a path into the live record). -/
def getF : FVal → List Nat → Option FVal
  | _, [] => none
  | f, [i] => (fgetIdx f i).map (fun p => p.2)
  | f, i :: j :: rest =>
    match fgetIdx f i with
    | some (_, .sub g) => getF g (j :: rest)
    | some (_, .ptrRec g _) => getF g (j :: rest)
    | _ => none

/-- Write a value at a field-index path (a write through a stored flag address). -/
def setF : FVal → List Nat → FVal → FVal
  | f, [], _ => f
  | f, [i], w => fsetIdx f i w
  | f, i :: j :: rest, w =>
    match fgetIdx f i with
    | some (_, .sub g) => fsetIdx f i (.sub (setF g (j :: rest) w))
    | some (_, .ptrRec g b) => fsetIdx f i (.ptrRec (setF g (j :: rest) w) b)
    | _ => f

/-- Make every pointer lying strictly along the path non-nil, zeroing the pointee
when the pointer was nil (the TOML decoder allocates nil pointers it must write
through; the walker has already allocated every pointer it registered flags under). -/
def allocAlong : FVal → List Nat → FVal
  | f, [] => f
  | f, [_] => f
  | f, i :: j :: rest =>
    match fgetIdx f i with
    | some (_, .sub g) => fsetIdx f i (.sub (allocAlong g (j :: rest)))
    | some (_, .ptrRec g true) => fsetIdx f i (.ptrRec (allocAlong (zeroF g) (j :: rest)) false)
    | some (_, .ptrRec g false) => fsetIdx f i (.ptrRec (allocAlong g (j :: rest)) false)
    | _ => f

/-- Split a character list at every occurrence of the separator. On the empty
list this yields one empty group, matching Go's strings.Split contract that
splitting the empty string around a non-empty separator gives one empty element. -/
def splitChar (sep : Char) : List Char → List (List Char)
  | [] => [[]]
  | c :: rest =>
    match splitChar sep rest with
    | g :: gs => if c = sep then [] :: g :: gs else (c :: g) :: gs
    | [] => if c = sep then [[], []] else [[c]]

/-- Models strings.Split(s, sep) for a one-character separator (the only form
the repository uses, with sep = ","). -/
def goSplit (s : String) (sep : Char) : List String :=
  (splitChar sep s.toList).map String.mk

/-- Models strings.ToLower on the ASCII field names the repository deals with. -/
def lowerStr (s : String) : String :=
  String.mk (s.toList.map Char.toLower)

/-- Accumulate decimal digits; none when the list is empty or holds a non-digit.
Helper for the strconv numeric parsers. -/
def decDigits : List Char → Option Nat
  | [] => none
  | cs => cs.foldl (fun acc c =>
      match acc with
      | none => none
      | some n => if c.isDigit then some (n * 10 + (c.toNat - 48)) else none) (some 0)

/-- Digit accumulation in base 2, 8 or 16 (for strconv.ParseInt with base 0). -/
def baseDigits (base : Nat) : List Char → Option Nat
  | [] => none
  | cs => cs.foldl (fun acc c =>
      match acc with
      | none => none
      | some n =>
        let d : Option Nat :=
          if c.isDigit then some (c.toNat - 48)
          else if 'a' ≤ c ∧ c ≤ 'f' then some (c.toNat - 87)
          else if 'A' ≤ c ∧ c ≤ 'F' then some (c.toNat - 55)
          else none
        match d with
        | some dv => if dv < base then some (n * base + dv) else none
        | none => none) (some 0)

/-- Sign splitting shared by the strconv models. -/
def splitSign : List Char → Int × List Char
  | '+' :: rest => (1, rest)
  | '-' :: rest => (-1, rest)
  | cs => (1, cs)

/-- Models strconv.Atoi (base-10 signed parse at Go's 64-bit int width);
this is what (*Ints).Set applies to each comma-separated element. -/
def atoi (s : String) : Option Int :=
  let (sign, ds) := splitSign s.toList
  match decDigits ds with
  | none => none
  | some n =>
    let v : Int := sign * (n : Int)
    if v < -(2 ^ 63) ∨ v > 2 ^ 63 - 1 then none else some v

/-- Models strconv.ParseInt(s, 0, 64), the parser behind flag's IntVar values:
base chosen by prefix (0x/0o/0b/leading 0), modulo digit-group underscores,
which the repository never exercises. -/
def goParseInt0 (s : String) : Option Int :=
  let (sign, cs) := splitSign s.toList
  let m : Option Nat :=
    match cs with
    | '0' :: 'x' :: rest => baseDigits 16 rest
    | '0' :: 'X' :: rest => baseDigits 16 rest
    | '0' :: 'o' :: rest => baseDigits 8 rest
    | '0' :: 'O' :: rest => baseDigits 8 rest
    | '0' :: 'b' :: rest => baseDigits 2 rest
    | '0' :: 'B' :: rest => baseDigits 2 rest
    | '0' :: rest => if rest.isEmpty then some 0 else baseDigits 8 rest
    | _ => decDigits cs
  match m with
  | none => none
  | some n =>
    let v : Int := sign * (n : Int)
    if v < -(2 ^ 63) ∨ v > 2 ^ 63 - 1 then none else some v

/-- Models strconv.ParseBool, the parser behind flag's BoolVar values. -/
def goParseBool (s : String) : Option Bool :=
  if s = "1" ∨ s = "t" ∨ s = "T" ∨ s = "true" ∨ s = "TRUE" ∨ s = "True" then some true
  else if s = "0" ∨ s = "f" ∨ s = "F" ∨ s = "false" ∨ s = "FALSE" ∨ s = "False" then some false
  else none

/-- Model of the method Set of *Strings from flagconf.go: the slice is replaced
wholesale by the comma-split of the argument and the call never fails.
The first component carries the previous slice contents, which the source
discards. -/
def StringsSet (_ss : List String) (s : String) : Except String (List String) :=
  .ok (goSplit s ',')

/-- Inner loop of the method Set of *Ints: elements are appended one by one, so
on a malformed element the elements already seen stay appended (the receiver was
mutated before the error return). The Bool records whether the call succeeded. -/
def intsSetGo : List Int → List String → List Int × Bool
  | cur, [] => (cur, true)
  | cur, s :: rest =>
    match atoi s with
    | none => (cur, false)
    | some i => intsSetGo (cur ++ [i]) rest

/-- Model of the method Set of *Ints from flagconf.go: split on commas, Atoi each
element, append to the existing slice contents. -/
def IntsSet (is : List Int) (ss : String) : List Int × Bool :=
  intsSetGo is (goSplit ss ',')

/-- One registered flag: its name (the dotted namespace), semantic kind, the
stored address into the record (modeled as a field-index path), the usage
string, and the default value captured at registration time. -/
structure FlagSpec where
  name : String
  kind : FKind
  fpath : List Nat
  usage : String
  defv : Val
deriving DecidableEq, Repr

/-- The flag.FlagSet's registered flags, in registration order. -/
abbrev FlagSet := List FlagSpec

def hasFlag (fs : FlagSet) (nm : String) : Bool := fs.any (fun d => d.name = nm)

def findFlag (fs : FlagSet) (nm : String) : Option FlagSpec :=
  fs.find? (fun d => d.name = nm)

/-- How a call to registerFlags can abort: the returned
"flagconf: unhandled type" error, or the panic flag.(*FlagSet).Var raises when
two flags are registered under the same name. -/
inductive RegErr where
  | unhandledType : String → RegErr
  | dupPanic : String → RegErr
deriving DecidableEq, Repr

/-- Go type name rendered into the synthesized usage string. -/
def typeNameOf : FKind → String
  | .kbool => "bool"
  | .kint => "int"
  | .kstr => "string"
  | .kints => "flagconf.Ints"
  | .kstrs => "flagconf.Strings"

/-- Usage text for a leaf: the desc tag when present, else the synthesized
"(type flag, no description given)" string from registerFlags. -/
def usageFor (k : FKind) (desc : String) : String :=
  if desc = "" then "(" ++ typeNameOf k ++ " flag, no description given)" else desc

/-- Register one flag, modeling flagset.BoolVar/IntVar/StringVar/Var: panics
(flag redefined) when the name is already taken, else appends the flag. -/
def addFlag (fs : FlagSet) (nm : String) (k : FKind) (p : List Nat) (desc : String)
    (dv : Val) : Except RegErr FlagSet :=
  if hasFlag fs nm then .error (.dupPanic nm)
  else .ok (fs ++ [⟨nm, k, p, usageFor k desc, dv⟩])

/-- The flag name registerFlags computes for a field: the lower-cased field name,
overridden by a non-empty `flag` tag; none when the tag is the sentinel "-"
(the field and its descendants are skipped). -/
def flagNameOf (m : FieldMeta) : Option String :=
  match m.flagTag with
  | none => some (lowerStr m.name)
  | some t => if t = "" then some (lowerStr m.name) else if t = "-" then none else some t

def descOf (m : FieldMeta) : String := m.descTag.getD ""

/-- The joinNS helper from flagconf.go. -/
def joinNS (ns nm : String) : String := if ns = "" then nm else ns ++ "." ++ nm

/-- Walk of a freshly allocated zero record (what registerFlags does right after
reflect.New on a nil pointer-to-struct field: every leaf defaults to its zero
value, every nested pointer is nil and is in turn allocated). Returns the
allocated record and the flagset outcome. -/
def regZero (fs : FlagSet) (f : FVal) (base : List Nat) (idx : Nat) (ns : String) :
    FVal × Except RegErr FlagSet :=
  match f with
  | .fnil => (.fnil, .ok fs)
  | .fcons m v rest =>
    if m.canSet = false then
      let (rest', res) := regZero fs rest base (idx+1) ns
      (.fcons m (zeroF v) rest', res)
    else
      match flagNameOf m with
      | none =>
        let (rest', res) := regZero fs rest base (idx+1) ns
        (.fcons m (zeroF v) rest', res)
      | some nm =>
        let newNS := if m.anon then ns else joinNS ns nm
        match v with
        | .leaf u =>
          match addFlag fs newNS (kindOf u) (base ++ [idx]) (descOf m) (zeroVal u) with
          | .error e => (.fcons m (.leaf (zeroVal u)) rest, .error e)
          | .ok fs' =>
            let (rest', res) := regZero fs' rest base (idx+1) ns
            (.fcons m (.leaf (zeroVal u)) rest', res)
        | .sub g =>
          match regZero fs g (base ++ [idx]) 0 newNS with
          | (g', .error e) => (.fcons m (.sub g') rest, .error e)
          | (g', .ok fs') =>
            let (rest', res) := regZero fs' rest base (idx+1) ns
            (.fcons m (.sub g') rest', res)
        | .ptrRec t _ =>
          match regZero fs t (base ++ [idx]) 0 newNS with
          | (t', .error e) => (.fcons m (.ptrRec t' false) rest, .error e)
          | (t', .ok fs') =>
            let (rest', res) := regZero fs' rest base (idx+1) ns
            (.fcons m (.ptrRec t' false) rest', res)
        | .unsupported tn => (.fcons m v rest, .error (.unhandledType tn))
        | .fnil => (.fcons m v rest, .error (.unhandledType "malformed"))
        | .fcons _ _ _ => (.fcons m v rest, .error (.unhandledType "malformed"))
  | other => (other, .error (.unhandledType "malformed"))

/-- Model of registerFlags from flagconf.go over a struct's field chain.
Per field: skip when not settable (unexported) or when the flag tag is "-";
compute the child namespace (unchanged for embedded fields); allocate a fresh
zero record behind a nil pointer-to-struct before recursing (regZero fuses that
allocation with the recursive registration walk); register a flag for each leaf;
fail on an unhandled type. Returns the updated record (partial allocations
before a failure stay applied, as with the in-place mutation in Go) and the
flagset outcome. -/
def regFields (fs : FlagSet) (f : FVal) (base : List Nat) (idx : Nat) (ns : String) :
    FVal × Except RegErr FlagSet :=
  match f with
  | .fnil => (.fnil, .ok fs)
  | .fcons m v rest =>
    if m.canSet = false then
      let (rest', res) := regFields fs rest base (idx+1) ns
      (.fcons m v rest', res)
    else
      match flagNameOf m with
      | none =>
        let (rest', res) := regFields fs rest base (idx+1) ns
        (.fcons m v rest', res)
      | some nm =>
        let newNS := if m.anon then ns else joinNS ns nm
        match v with
        | .leaf u =>
          match addFlag fs newNS (kindOf u) (base ++ [idx]) (descOf m) u with
          | .error e => (.fcons m v rest, .error e)
          | .ok fs' =>
            let (rest', res) := regFields fs' rest base (idx+1) ns
            (.fcons m v rest', res)
        | .sub g =>
          match regFields fs g (base ++ [idx]) 0 newNS with
          | (g', .error e) => (.fcons m (.sub g') rest, .error e)
          | (g', .ok fs') =>
            let (rest', res) := regFields fs' rest base (idx+1) ns
            (.fcons m (.sub g') rest', res)
        | .ptrRec t true =>
          match regZero fs t (base ++ [idx]) 0 newNS with
          | (t', .error e) => (.fcons m (.ptrRec t' false) rest, .error e)
          | (t', .ok fs') =>
            let (rest', res) := regFields fs' rest base (idx+1) ns
            (.fcons m (.ptrRec t' false) rest', res)
        | .ptrRec t false =>
          match regFields fs t (base ++ [idx]) 0 newNS with
          | (t', .error e) => (.fcons m (.ptrRec t' false) rest, .error e)
          | (t', .ok fs') =>
            let (rest', res) := regFields fs' rest base (idx+1) ns
            (.fcons m (.ptrRec t' false) rest', res)
        | .unsupported tn => (.fcons m v rest, .error (.unhandledType tn))
        | .fnil => (.fcons m v rest, .error (.unhandledType "malformed"))
        | .fcons _ _ _ => (.fcons m v rest, .error (.unhandledType "malformed"))
  | other => (other, .error (.unhandledType "malformed"))

/-- One key/value pair of the decoded TOML file, with its full key path
(section names followed by the key). -/
structure TomlEntry where
  keys : List String
  tval : Val
deriving DecidableEq, Repr

/-- Modelled from the spec: the structured-file source seen through the
collaborating decoder interface of section 6 — the file may be absent, contain
malformed TOML, or decode to a sequence of key-path/value pairs. The decoder
itself (BurntSushi/toml) is not part of this repository. -/
inductive TomlFile where
  | absent : TomlFile
  | malformed : TomlFile
  | doc : List TomlEntry → TomlFile
deriving DecidableEq, Repr

/-- The TOML-visible name of a field: the `toml` tag when present ("-" excludes
the field from TOML matching), else the field name. -/
def effTomlName (m : FieldMeta) : Option String :=
  match m.tomlTag with
  | some t => if t = "-" then none else if t = "" then some m.name else some t
  | none => some m.name

/-- First settable field whose TOML name matches the key exactly, searching
embedded (anonymous) struct fields' own fields as if they belonged to the outer
struct (the promotion encoding/json applies). Returns the field-index path. -/
def findTomlExact : FVal → String → Nat → Option (List Nat)
  | .fcons m v r, key, i =>
    if m.canSet ∧ effTomlName m = some key then some [i]
    else if m.canSet ∧ m.anon ∧ (effTomlName m).isSome then
      match v with
      | .sub g =>
        match findTomlExact g key 0 with
        | some p => some (i :: p)
        | none => findTomlExact r key (i+1)
      | .ptrRec g _ =>
        match findTomlExact g key 0 with
        | some p => some (i :: p)
        | none => findTomlExact r key (i+1)
      | _ => findTomlExact r key (i+1)
    else findTomlExact r key (i+1)
  | _, _, _ => none

/-- Like findTomlExact but matching the key case-insensitively. -/
def findTomlCI : FVal → String → Nat → Option (List Nat)
  | .fcons m v r, key, i =>
    if m.canSet ∧ (effTomlName m).map lowerStr = some (lowerStr key) then some [i]
    else if m.canSet ∧ m.anon ∧ (effTomlName m).isSome then
      match v with
      | .sub g =>
        match findTomlCI g key 0 with
        | some p => some (i :: p)
        | none => findTomlCI r key (i+1)
      | .ptrRec g _ =>
        match findTomlCI g key 0 with
        | some p => some (i :: p)
        | none => findTomlCI r key (i+1)
      | _ => findTomlCI r key (i+1)
    else findTomlCI r key (i+1)
  | _, _, _ => none

/-- Modelled from the spec: "matching each file key to a record field by: exact
name match first, else case-insensitive match, else an explicit file-naming tag
if declared" (the tag takes the field name's place when declared), with embedded
substructure fields flattened into the outer struct. -/
def findTomlIdx (f : FVal) (key : String) : Option (List Nat) :=
  match findTomlExact f key 0 with
  | some p => some p
  | none => findTomlCI f key 0

/-- Outcome of resolving a TOML key path against the record's shape: the
field-index path it addresses, no matching field (the entry is ignored,
forward-compatibly), or a shape clash (a section keyed onto a scalar or
vice versa, which the decoder reports as an error). -/
inductive ResOut where
  | found : List Nat → ResOut
  | unmatched : ResOut
  | badShape : ResOut
deriving DecidableEq, Repr

def ResOut.push (p : List Nat) : ResOut → ResOut
  | .found q => .found (p ++ q)
  | .unmatched => .unmatched
  | .badShape => .badShape

/-- Resolve a TOML key path to a field-index path, descending through nested
structs and pointers-to-struct. Resolution looks only at field metadata and the
record's shape, never at leaf contents. -/
def resolveKeys : FVal → List String → ResOut
  | _, [] => .badShape
  | f, [k] =>
    match findTomlIdx f k with
    | none => .unmatched
    | some p => .found p
  | f, k :: k2 :: rest =>
    match findTomlIdx f k with
    | none => .unmatched
    | some p =>
      match getF f p with
      | some (.sub g) => (resolveKeys g (k2 :: rest)).push p
      | some (.ptrRec g _) => (resolveKeys g (k2 :: rest)).push p
      | some (.unsupported _) => .unmatched
      | _ => .badShape

/-- How flag.(*FlagSet).Parse can fail: an explicit help request (ErrHelp),
bad flag syntax, an unknown flag name, a flag missing its argument, and a value
the flag's Set method rejects. -/
inductive FParseErr where
  | helpRequested : FParseErr
  | badSyntax : String → FParseErr
  | notDefined : String → FParseErr
  | needsArg : String → FParseErr
  | invalidValue : String → String → FParseErr
deriving DecidableEq, Repr

/-- Errors ParseStrings can surface, mirroring the source's error paths:
the two early argument/shape checks, the registerFlags outcomes (the returned
unhandled-type error and the flag-redefinition panic, kept distinct because a
panic is not a returned error), the file-layer failures, and FlagError
(the wrapped argument-parsing failure together with the rendered usage text). -/
inductive PErr where
  | emptyArgs : PErr
  | notStructPtr : PErr
  | schemaErr : String → PErr
  | dupFlagPanic : String → PErr
  | fileNotExist : PErr
  | fileMalformed : PErr
  | fileTypeErr : PErr
  | flagErr : FParseErr → String → PErr
deriving DecidableEq, Repr

/-- Apply one decoded TOML entry to the record: unmatched keys are ignored,
shape clashes and type mismatches between the file value and the leaf fail the
decode, matched leaves are overwritten (pointers along the way are allocated
when nil). -/
def decodeEntry (r : FVal) (e : TomlEntry) : FVal × Option PErr :=
  match resolveKeys r e.keys with
  | .unmatched => (r, none)
  | .badShape => (r, some .fileTypeErr)
  | .found p =>
    let r1 := allocAlong r p
    match getF r1 p with
    | some (.leaf u) =>
      if kindOf u = kindOf e.tval then (setF r1 p (.leaf e.tval), none)
      else (r1, some .fileTypeErr)
    | some (.unsupported _) => (r, none)
    | _ => (r1, some .fileTypeErr)

/-- Apply the decoded entries in file order; a failure aborts the fold with the
entries already applied left in place (the decode is not transactional). -/
def decodeDoc (r : FVal) : List TomlEntry → FVal × Option PErr
  | [] => (r, none)
  | e :: rest =>
    match decodeEntry r e with
    | (r', none) => decodeDoc r' rest
    | (r', some er) => (r', some er)

/-- Modelled from the spec: toml.DecodeFile — "file not found" is distinguished
from malformed content and from type mismatches. -/
def decodeFile (file : TomlFile) (r : FVal) : FVal × Option PErr :=
  match file with
  | .absent => (r, some .fileNotExist)
  | .malformed => (r, some .fileMalformed)
  | .doc es => decodeDoc r es

/-- Split a flag token's name part from its value part at the first '=' after
the first character (flag.(*FlagSet).parseOne scans for '=' from index 1). -/
def splitNameValue : List Char → String × Option String
  | [] => ("", none)
  | c0 :: rest =>
    match rest.findIdx? (fun c => c = '=') with
    | none => (String.mk (c0 :: rest), none)
    | some i => (String.mk (c0 :: rest.take i), some (String.mk (rest.drop (i+1))))

/-- Apply a flag's Set method to a raw string: parse per the flag's kind and
write through the stored address. For the Ints settable the new elements are
appended to the current slice (and a malformed element leaves the elements
before it appended); for every other kind the leaf is replaced. The Bool
records whether Set succeeded. -/
def setFlagVal (r : FVal) (d : FlagSpec) (raw : String) : FVal × Bool :=
  match d.kind with
  | .kbool =>
    match goParseBool raw with
    | none => (r, false)
    | some b => (setF r d.fpath (.leaf (.vbool b)), true)
  | .kint =>
    match goParseInt0 raw with
    | none => (r, false)
    | some n => (setF r d.fpath (.leaf (.vint n)), true)
  | .kstr => (setF r d.fpath (.leaf (.vstr raw)), true)
  | .kstrs =>
    match StringsSet [] raw with
    | .ok l => (setF r d.fpath (.leaf (.vstrs l)), true)
    | .error _ => (r, false)
  | .kints =>
    match getF r d.fpath with
    | some (.leaf (.vints cur)) =>
      let (res, ok) := IntsSet cur raw
      (setF r d.fpath (.leaf (.vints res)), ok)
    | _ => (r, false)

/-- Model of flag.(*FlagSet).Parse with ContinueOnError over the registered
flags: tokens are handled one at a time and each successful Set writes into the
record immediately, so when a later token fails the earlier writes remain.
A non-flag token or a bare "--" terminates parsing silently; "-h"/"--help"
with no such flag registered yields ErrHelp; boolean flags accept "-name" with
no value; other flags may take their value from the next token. -/
def parseArgs (fs : FlagSet) (r : FVal) (args : List String) : FVal × Option FParseErr :=
  match args with
  | [] => (r, none)
  | s :: rest =>
    match s.toList with
    | '-' :: c1 :: cr =>
      let core := if c1 = '-' then cr else c1 :: cr
      match core with
      | [] => (r, none)
      | c0 :: _ =>
        if c0 = '-' ∨ c0 = '=' then (r, some (.badSyntax s))
        else
          let (nm, rawv) := splitNameValue core
          match findFlag fs nm with
          | none =>
            if nm = "help" ∨ nm = "h" then (r, some .helpRequested)
            else (r, some (.notDefined nm))
          | some d =>
            if d.kind = .kbool then
              let raw := rawv.getD "true"
              let (r', ok) := setFlagVal r d raw
              if ok then parseArgs fs r' rest else (r', some (.invalidValue raw nm))
            else
              match rawv with
              | some raw =>
                let (r', ok) := setFlagVal r d raw
                if ok then parseArgs fs r' rest else (r', some (.invalidValue raw nm))
              | none =>
                match rest with
                | v :: rest2 =>
                  let (r', ok) := setFlagVal r d v
                  if ok then parseArgs fs r' rest2 else (r', some (.invalidValue v nm))
                | [] => (r, some (.needsArg nm))
    | _ => (r, none)

/-- Rendering of a flag's default value (flag stores DefValue as the value's
string form at registration time). -/
def defvString : Val → String
  | .vbool b => if b then "true" else "false"
  | .vint n => toString n
  | .vstr s => s
  | .vints l => String.intercalate "," (l.map toString)
  | .vstrs l => String.intercalate "," l

/-- One line of the usage listing for a registered flag. -/
def usageLine (d : FlagSpec) : String :=
  "-" ++ d.name ++ "=" ++ defvString d.defv ++ ": " ++ d.usage

/-- Lexicographic order on character lists (the byte-wise string order Go's
sort package applies to flag names). -/
def charListLe : List Char → List Char → Bool
  | [], _ => true
  | _ :: _, [] => false
  | a :: as, b :: bs =>
    if a.toNat < b.toNat then true
    else if b.toNat < a.toNat then false
    else charListLe as bs

def strLeb (a b : String) : Bool := charListLe a.toList b.toList

/-- Insert a flag into a name-sorted listing. -/
def insertSorted (d : FlagSpec) : List FlagSpec → List FlagSpec
  | [] => [d]
  | e :: rest => if strLeb d.name e.name then d :: e :: rest else e :: insertSorted d rest

/-- Sort flags by name (flag.(*FlagSet).PrintDefaults prints in sorted order). -/
def sortFlags : List FlagSpec → List FlagSpec
  | [] => []
  | d :: rest => insertSorted d (sortFlags rest)

/-- The usage text FlagError carries: the "Usage of prog:" header followed by
the defaults listing (flag.(*FlagSet).PrintDefaults prints flags sorted by
name), trimmed as in the source. -/
def usageText (prog : String) (fs : FlagSet) : String :=
  "Usage of " ++ prog ++ ":\n" ++
    String.intercalate "\n" ((sortFlags fs).map usageLine)

/-- The argument-parsing tail of ParseStrings: run flagset.Parse on args[1:],
wrapping a failure in FlagError together with the rendered usage listing. -/
def runArgs (fs : FlagSet) (r : FVal) (prog : String) (argv : List String) :
    FVal × Option PErr :=
  match parseArgs fs r argv with
  | (r', none) => (r', none)
  | (r', some fe) => (r', some (.flagErr fe (usageText prog fs)))

/-- The config argument must be a non-nil pointer to a struct; the embedding
carries the pointed-to struct value directly. -/
def isStructF : FVal → Bool
  | .fnil => true
  | .fcons _ _ _ => true
  | _ => false

/-- Model of ParseStrings from flagconf.go: check the argument list and the
config shape, run registerFlags (whose flag-redefinition panic is kept as a
distinct outcome), decode the TOML file into the record — a missing file is
tolerated exactly when allowNoConfigFile is set, any other decode failure
returns before any argument is parsed — then parse args[1:] against the
registered flags, wrapping a parse failure in FlagError with the usage text.
Returns the record's final state (the in-place mutations) plus the outcome. -/
def ParseStrings (args : List String) (file : TomlFile) (config : FVal)
    (allowNoConfigFile : Bool) : FVal × Option PErr :=
  match args with
  | [] => (config, some .emptyArgs)
  | prog :: argv =>
    if isStructF config = false then (config, some .notStructPtr)
    else
      match regFields [] config [] 0 "" with
      | (c1, .error (.unhandledType tn)) => (c1, some (.schemaErr tn))
      | (c1, .error (.dupPanic nm)) => (c1, some (.dupFlagPanic nm))
      | (c1, .ok fs) =>
        match decodeFile file c1 with
        | (c2, some .fileNotExist) =>
          if allowNoConfigFile then runArgs fs c2 prog argv
          else (c2, some .fileNotExist)
        | (c2, some er) => (c2, some er)
        | (c2, none) => runArgs fs c2 prog argv

/-- Specification-level scan of the argument list: the (flag name, raw value)
assignments flagset.Parse would apply, in order, assuming every Set succeeds.
It mirrors the token grammar of parseArgs: boolean flags default their raw
value to "true", other flags may consume the following token. -/
def argAssigns (fs : FlagSet) : List String → List (String × String)
  | [] => []
  | s :: rest =>
    match s.toList with
    | '-' :: c1 :: cr =>
      let core := if c1 = '-' then cr else c1 :: cr
      match core with
      | [] => []
      | c0 :: _ =>
        if c0 = '-' ∨ c0 = '=' then []
        else
          let (nm, rawv) := splitNameValue core
          match findFlag fs nm with
          | none => []
          | some d =>
            if d.kind = .kbool then (nm, rawv.getD "true") :: argAssigns fs rest
            else
              match rawv with
              | some raw => (nm, raw) :: argAssigns fs rest
              | none =>
                match rest with
                | v :: rest2 => (nm, v) :: argAssigns fs rest2
                | [] => []
    | _ => []

/-- The raw value of the last argument assignment to the given flag name,
none when no argument token set that flag (last-writer-wins within the
argument layer). -/
def lastAssign : List (String × String) → String → Option String
  | [], _ => none
  | a :: l, nm =>
    match lastAssign l nm with
    | some r => some r
    | none => if a.1 = nm then some a.2 else none

/-- The value a flag's Set method stores for a raw string, for the
replace-style kinds (none marks a parse failure; the accumulate-style Ints
kind is excluded, its Set appends instead of storing a value). -/
def parseKindVal : FKind → String → Option Val
  | .kbool, s => (goParseBool s).map (fun b => .vbool b)
  | .kint, s => (goParseInt0 s).map (fun n => .vint n)
  | .kstr, s => some (.vstr s)
  | .kstrs, s => some (.vstrs (goSplit s ','))
  | .kints, _ => none

/-- The value the file layer leaves at a field-index path: the value of the
last entry of the document resolving to that path (the decode applies entries
in order, overwriting, so a later entry takes priority). Resolution is
computed against the record as it stands when the decode starts; resolution
only reads shape and metadata, which the decode never changes. -/
def fileSets (r : FVal) : List TomlEntry → List Nat → Option Val
  | [], _ => none
  | e :: rest, p =>
    match fileSets r rest p with
    | some v => some v
    | none => if resolveKeys r e.keys = .found p then some e.tval else none

/-- Every pointer crossed strictly along the path is non-nil (the record
really owns storage for the leaf the path addresses). -/
def ptrsLive : FVal → List Nat → Bool
  | _, [] => true
  | _, [_] => true
  | f, i :: j :: rest =>
    match fgetIdx f i with
    | some (_, .sub g) => ptrsLive g (j :: rest)
    | some (_, .ptrRec g b) => !b && ptrsLive g (j :: rest)
    | _ => false

/-- A canonical value of each kind (used to erase leaf contents). -/
def kindDefault : FKind → Val
  | .kbool => .vbool false
  | .kint => .vint 0
  | .kstr => .vstr ""
  | .kints => .vints []
  | .kstrs => .vstrs []

/-- The shape skeleton of a reflected value: leaf contents are replaced by a
canonical value of their kind and pointer nil-ness is erased. TOML key
resolution and the decode's type check only read the skeleton, and no write
performed during a bind call changes it. -/
def skel : FVal → FVal
  | .leaf v => .leaf (kindDefault (kindOf v))
  | .fnil => .fnil
  | .fcons m v r => .fcons m (skel v) (skel r)
  | .sub g => .sub (skel g)
  | .ptrRec g _ => .ptrRec (skel g) true
  | .unsupported t => .unsupported t

/-- Every leaf reachable in the value (descending through structs and pointer
targets) holds its type's zero value. -/
def leavesZero : FVal → Bool
  | .leaf v => v == zeroVal v
  | .fnil => true
  | .fcons _ v r => leavesZero v && leavesZero r
  | .sub g => leavesZero g
  | .ptrRec g _ => leavesZero g
  | .unsupported _ => true

/-- A plain exported field with no tags. -/
def plainField (nm : String) : FieldMeta := ⟨nm, none, none, none, false, true⟩

/-- Example record: struct { F1 int } with the given default. -/
def cfgSimple (d : Int) : FVal := .fcons (plainField "F1") (.leaf (.vint d)) .fnil

/-- Example record: struct { F1 int; F2 int } both defaulted to 0. -/
def cfgTwo : FVal :=
  .fcons (plainField "F1") (.leaf (.vint 0))
    (.fcons (plainField "F2") (.leaf (.vint 0)) .fnil)

/-- Example record with a duplicate namespace: struct { F1 int; F2 int `flag:"f1"` }. -/
def cfgDup : FVal :=
  .fcons (plainField "F1") (.leaf (.vint 0))
    (.fcons ⟨"F2", some "f1", none, none, false, true⟩ (.leaf (.vint 0)) .fnil)

/-- Example record with an excluded field: struct { F1 int `flag:"-"` }. -/
def cfgExcl : FVal :=
  .fcons ⟨"F1", some "-", none, none, false, true⟩ (.leaf (.vint 0)) .fnil

/-- Example record with a settable list leaf: struct { F Ints }. -/
def cfgInts : FVal := .fcons (plainField "F") (.leaf (.vints [])) .fnil

/-- Example record with an embedded substructure: struct { E struct{ F int } }
with E anonymous. -/
def cfgAnon : FVal :=
  .fcons ⟨"E", none, none, none, true, true⟩
    (.sub (.fcons (plainField "F") (.leaf (.vint 0)) .fnil)) .fnil

/-- Example record with a nil pointer to a nested struct:
struct { S1 *struct{ F1 int } } with S1 nil. -/
def cfgNilPtr : FVal :=
  .fcons (plainField "S1")
    (.ptrRec (.fcons (plainField "F1") (.leaf (.vint 0)) .fnil) true) .fnil

/-- Recognizer for the schema error ParseStrings returns on unhandled types. -/
def isSchemaErr : Option PErr → Bool
  | some (.schemaErr _) => true
  | _ => false

/-- Parse every element with atoi; some list exactly when every element is a
valid integer. -/
def parseAllInts : List String → Option (List Int)
  | [] => some []
  | s :: rest =>
    match atoi s, parseAllInts rest with
    | some i, some l => some (i :: l)
    | _, _ => none

/-- Every field the walk would enter (settable, not excluded by a `flag:"-"`
tag) leads to a leaf, a nested struct or a pointer-to-struct — no field of an
unhandled type is reachable, so registerFlags cannot return its
"unhandled type" error. -/
def supportedF : FVal → Bool
  | .fnil => true
  | .fcons m v r =>
    (if m.canSet && (flagNameOf m).isSome then
      match v with
      | .leaf _ => true
      | .sub g => supportedF g
      | .ptrRec t _ => supportedF t
      | _ => false
    else true) && supportedF r
  | _ => false

/-- The dotted namespaces the schema walk computes, in walk order (the names
registerFlags hands to the flag set). -/
def collectNS : FVal → String → List String
  | .fcons m v r, ns =>
    (if m.canSet then
      match flagNameOf m with
      | none => []
      | some nm =>
        let newNS := if m.anon then ns else joinNS ns nm
        match v with
        | .leaf _ => [newNS]
        | .sub g => collectNS g newNS
        | .ptrRec t _ => collectNS t newNS
        | _ => []
    else []) ++ collectNS r ns
  | _, _ => []

/-- The address-free projection of a registered flag: its name, kind, usage
text and default value. -/
def projFS (d : FlagSpec) : String × FKind × String × Val :=
  (d.name, d.kind, d.usage, d.defv)

/-- The descriptor projections the walk of a freshly zero-allocated record
produces: every default is the zero value, every pointer is walked as a nil
pointer freshly allocated. -/
def collectDescsZ : FVal → String → List (String × FKind × String × Val)
  | .fcons m v r, ns =>
    (if m.canSet then
      match flagNameOf m with
      | none => []
      | some nm =>
        let newNS := if m.anon then ns else joinNS ns nm
        match v with
        | .leaf u => [(newNS, kindOf u, usageFor (kindOf u) (descOf m), zeroVal u)]
        | .sub g => collectDescsZ g newNS
        | .ptrRec t _ => collectDescsZ t newNS
        | _ => []
    else []) ++ collectDescsZ r ns
  | _, _ => []

/-- The descriptor projections the schema walk produces, in walk order:
per leaf its namespace, kind, usage text and the default captured from the
record (behind a nil pointer the defaults are the zero values the fresh
allocation provides). -/
def collectDescs : FVal → String → List (String × FKind × String × Val)
  | .fcons m v r, ns =>
    (if m.canSet then
      match flagNameOf m with
      | none => []
      | some nm =>
        let newNS := if m.anon then ns else joinNS ns nm
        match v with
        | .leaf u => [(newNS, kindOf u, usageFor (kindOf u) (descOf m), u)]
        | .sub g => collectDescs g newNS
        | .ptrRec t true => collectDescsZ t newNS
        | .ptrRec t false => collectDescs t newNS
        | _ => []
    else []) ++ collectDescs r ns
  | _, _ => []

/-- Fold a list of flag Set calls over the record, keeping each call's record
outcome (the argument layer's writes are exactly such a sequence). -/
def applyWrites (r : FVal) : List (FlagSpec × String) → FVal
  | [] => r
  | w :: ws => applyWrites (setFlagVal r w.1 w.2).1 ws

/-- Every registered flag's stored address is live and points at a leaf of the
flag's kind (the invariant registerFlags establishes and every layer's writes
preserve). -/
def leafInv (fs : FlagSet) (r : FVal) : Prop :=
  ∀ d ∈ fs, ∃ u, getF r d.fpath = some (.leaf u) ∧ ptrsLive r d.fpath = true ∧
    d.kind = kindOf u

/-- Character-list prefix test (spec-side, to speak about dotted-namespace
prefixes). -/
def prefixB : List Char → List Char → Bool
  | [], _ => true
  | _ :: _, [] => false
  | a :: as, b :: bs => a = b && prefixB as bs

end Flagconf

namespace Flagconf

/-- Field lookup after setting the same index yields the new value with the
old metadata. -/
theorem fgetIdx_fsetIdx_self (f : FVal) (i : Nat) (m : FieldMeta) (v w : FVal)
    (h : fgetIdx f i = some (m, v)) : fgetIdx (fsetIdx f i w) i = some (m, w) := by
  induction f generalizing i with
  | fcons m' v' r ihv ihr =>
    cases i with
    | zero =>
      simp [fgetIdx] at h
      simp [fgetIdx, fsetIdx, h.1]
    | succ n =>
      simp [fgetIdx] at h
      simp [fgetIdx, fsetIdx]
      exact ihr n h
  | leaf u => simp [fgetIdx] at h
  | fnil => simp [fgetIdx] at h
  | sub g ih => simp [fgetIdx] at h
  | ptrRec g b ih => simp [fgetIdx] at h
  | unsupported t => simp [fgetIdx] at h

/-- Field lookup at a different index is unchanged by setting. -/
theorem fgetIdx_fsetIdx_ne (f : FVal) (i j : Nat) (w : FVal) (hne : i ≠ j) :
    fgetIdx (fsetIdx f i w) j = fgetIdx f j := by
  induction f generalizing i j with
  | fcons m' v' r ihv ihr =>
    cases i with
    | zero =>
      cases j with
      | zero => exact absurd rfl hne
      | succ n => simp [fgetIdx, fsetIdx]
    | succ n =>
      cases j with
      | zero => simp [fgetIdx, fsetIdx]
      | succ k =>
        simp [fgetIdx, fsetIdx]
        exact ihr n k (by omega)
  | leaf u => rfl
  | fnil => rfl
  | sub g ih => rfl
  | ptrRec g b ih => rfl
  | unsupported t => rfl

/-- Reading the path just written (a leaf position) yields the written value. -/
theorem getF_setF_self (p : List Nat) :
    ∀ (r : FVal) (u : Val) (w : FVal), getF r p = some (.leaf u) →
      getF (setF r p w) p = some w := by
  induction p with
  | nil => intro r u w h; simp [getF] at h
  | cons i p ih =>
    intro r u w h
    cases p with
    | nil =>
      simp only [getF, Option.map_eq_some'] at h
      obtain ⟨⟨m, v⟩, hmv, _⟩ := h
      simp only [setF, getF]
      rw [fgetIdx_fsetIdx_self r i m v w hmv]
      rfl
    | cons j q =>
      simp only [getF] at h
      match hf : fgetIdx r i with
      | some (m, .sub g) =>
        rw [hf] at h
        simp only [setF, hf, getF]
        rw [fgetIdx_fsetIdx_self r i m (.sub g) _ hf]
        exact ih g u w h
      | some (m, .ptrRec g b) =>
        rw [hf] at h
        simp only [setF, hf, getF]
        rw [fgetIdx_fsetIdx_self r i m (.ptrRec g b) _ hf]
        exact ih g u w h
      | some (m, .leaf x) => rw [hf] at h; exact absurd h (by simp)
      | some (m, .fnil) => rw [hf] at h; exact absurd h (by simp)
      | some (m, .fcons m2 v2 r2) => rw [hf] at h; exact absurd h (by simp)
      | some (m, .unsupported t) => rw [hf] at h; exact absurd h (by simp)
      | none => rw [hf] at h; exact absurd h (by simp)

/-- Writing one leaf leaves every other leaf unchanged (two distinct leaf
positions never alias: a leaf path cannot be a prefix of another leaf path). -/
theorem getF_one (f : FVal) (i : Nat) :
    getF f [i] = (fgetIdx f i).map (fun p => p.2) := rfl

theorem getF_cons2 (f : FVal) (i j : Nat) (rest : List Nat) :
    getF f (i :: j :: rest) =
      match fgetIdx f i with
      | some (_, .sub g) => getF g (j :: rest)
      | some (_, .ptrRec g _) => getF g (j :: rest)
      | _ => none := rfl

theorem getF_setF_ne (p : List Nat) :
    ∀ (q : List Nat) (r : FVal) (u x : Val) (w : FVal),
      getF r p = some (.leaf u) → getF r q = some (.leaf x) → p ≠ q →
      getF (setF r p w) q = some (.leaf x) := by
  induction p with
  | nil => intro q r u x w hp _ _; simp [getF] at hp
  | cons i p ih =>
    intro q r u x w hp hq hne
    cases p with
    | nil =>
      simp only [getF, Option.map_eq_some'] at hp
      obtain ⟨⟨m, v⟩, hmv, hv⟩ := hp
      simp only at hv
      subst hv
      cases q with
      | nil => simp [getF] at hq
      | cons j q2 =>
        cases q2 with
        | nil =>
          have hij : i ≠ j := fun h => hne (by rw [h])
          simp only [setF, getF]
          rw [fgetIdx_fsetIdx_ne r i j w hij]
          simpa [getF] using hq
        | cons k q3 =>
          by_cases hij : i = j
          · subst hij
            simp only [getF, hmv] at hq
            exact absurd hq (by simp)
          · simp only [setF, getF]
            rw [fgetIdx_fsetIdx_ne r i j w hij]
            simpa [getF] using hq
    | cons i2 p2 =>
      simp only [getF] at hp
      match hf : fgetIdx r i with
      | some (m, .sub g) =>
        rw [hf] at hp
        cases q with
        | nil => simp [getF] at hq
        | cons j q2 =>
          by_cases hij : i = j
          · subst hij
            cases q2 with
            | nil =>
              simp only [getF, Option.map_eq_some', hf] at hq
              obtain ⟨⟨m', v'⟩, hmv', hv'⟩ := hq
              injection hmv' with hmv2
              injection hmv2 with hm2 hv2
              rw [← hv2] at hv'
              simp at hv'
            | cons k q3 =>
              simp only [getF, hf] at hq
              simp only [setF, hf, getF]
              rw [fgetIdx_fsetIdx_self r i m (.sub g) _ hf]
              exact ih (k :: q3) g u x w hp hq (fun h => hne (by rw [h]))
          · simp only [setF, hf]
            cases q2 with
            | nil =>
              rw [getF_one, fgetIdx_fsetIdx_ne r i j _ hij, ← getF_one]
              exact hq
            | cons k q3 =>
              rw [getF_cons2, fgetIdx_fsetIdx_ne r i j _ hij, ← getF_cons2]
              exact hq
      | some (m, .ptrRec g b) =>
        rw [hf] at hp
        cases q with
        | nil => simp [getF] at hq
        | cons j q2 =>
          by_cases hij : i = j
          · subst hij
            cases q2 with
            | nil =>
              simp only [getF, Option.map_eq_some', hf] at hq
              obtain ⟨⟨m', v'⟩, hmv', hv'⟩ := hq
              injection hmv' with hmv2
              injection hmv2 with hm2 hv2
              rw [← hv2] at hv'
              simp at hv'
            | cons k q3 =>
              simp only [getF, hf] at hq
              simp only [setF, hf, getF]
              rw [fgetIdx_fsetIdx_self r i m (.ptrRec g b) _ hf]
              exact ih (k :: q3) g u x w hp hq (fun h => hne (by rw [h]))
          · simp only [setF, hf]
            cases q2 with
            | nil =>
              rw [getF_one, fgetIdx_fsetIdx_ne r i j _ hij, ← getF_one]
              exact hq
            | cons k q3 =>
              rw [getF_cons2, fgetIdx_fsetIdx_ne r i j _ hij, ← getF_cons2]
              exact hq
      | some (m, .leaf y) => rw [hf] at hp; exact absurd hp (by simp)
      | some (m, .fnil) => rw [hf] at hp; exact absurd hp (by simp)
      | some (m, .fcons m2 v2 r2) => rw [hf] at hp; exact absurd hp (by simp)
      | some (m, .unsupported t) => rw [hf] at hp; exact absurd hp (by simp)
      | none => rw [hf] at hp; exact absurd hp (by simp)

/-- A write whose path enters a different top-level field leaves a field's
slot untouched. -/
theorem fgetIdx_setF_head_ne (r : FVal) (p : List Nat) (w : FVal) (i : Nat)
    (h : p.head? ≠ some i) : fgetIdx (setF r p w) i = fgetIdx r i := by
  cases p with
  | nil => rfl
  | cons j q =>
    have hij : j ≠ i := by simpa using h
    cases q with
    | nil => exact fgetIdx_fsetIdx_ne r j i w hij
    | cons k q2 =>
      simp only [setF]
      match hf : fgetIdx r j with
      | some (m, .sub g) => exact fgetIdx_fsetIdx_ne r j i _ hij
      | some (m, .ptrRec g b) => exact fgetIdx_fsetIdx_ne r j i _ hij
      | some (m, .leaf y) => rfl
      | some (m, .fnil) => rfl
      | some (m, .fcons m2 v2 r2) => rfl
      | some (m, .unsupported t) => rfl
      | none => rfl

/-- An allocation whose path enters a different top-level field leaves a
field's slot untouched. -/
theorem fgetIdx_allocAlong_head_ne (r : FVal) (p : List Nat) (i : Nat)
    (h : p.head? ≠ some i) : fgetIdx (allocAlong r p) i = fgetIdx r i := by
  cases p with
  | nil => rfl
  | cons j q =>
    have hij : j ≠ i := by simpa using h
    cases q with
    | nil => rfl
    | cons k q2 =>
      simp only [allocAlong]
      match hf : fgetIdx r j with
      | some (m, .sub g) => exact fgetIdx_fsetIdx_ne r j i _ hij
      | some (m, .ptrRec g true) => exact fgetIdx_fsetIdx_ne r j i _ hij
      | some (m, .ptrRec g false) => exact fgetIdx_fsetIdx_ne r j i _ hij
      | some (m, .leaf y) => rfl
      | some (m, .fnil) => rfl
      | some (m, .fcons m2 v2 r2) => rfl
      | some (m, .unsupported t) => rfl
      | none => rfl

theorem ptrsLive_cons2 (f : FVal) (i j : Nat) (rest : List Nat) :
    ptrsLive f (i :: j :: rest) =
      match fgetIdx f i with
      | some (_, .sub g) => ptrsLive g (j :: rest)
      | some (_, .ptrRec g b) => !b && ptrsLive g (j :: rest)
      | _ => false := rfl

/-- A non-nil pointer field stays non-nil under a leaf write. -/
theorem fgetIdx_setF_ptrFalse (r : FVal) (p : List Nat) (w : FVal) (i : Nat)
    (m : FieldMeta) (t : FVal) (u : Val)
    (hleaf : getF r p = some (.leaf u))
    (hi : fgetIdx r i = some (m, .ptrRec t false)) :
    ∃ t', fgetIdx (setF r p w) i = some (m, .ptrRec t' false) := by
  cases p with
  | nil => exact ⟨t, hi⟩
  | cons j q =>
    by_cases hij : j = i
    · subst hij
      cases q with
      | nil =>
        rw [getF_one, hi] at hleaf
        exact absurd hleaf (by simp)
      | cons k q2 =>
        simp only [setF, hi]
        exact ⟨setF t (k :: q2) w, fgetIdx_fsetIdx_self r j m _ _ hi⟩
    · exact ⟨t, by rw [fgetIdx_setF_head_ne r (j :: q) w i (by simpa using hij), hi]⟩

/-- A non-nil pointer field stays non-nil under allocation. -/
theorem fgetIdx_allocAlong_ptrFalse (r : FVal) (p : List Nat) (i : Nat)
    (m : FieldMeta) (t : FVal)
    (hi : fgetIdx r i = some (m, .ptrRec t false)) :
    ∃ t', fgetIdx (allocAlong r p) i = some (m, .ptrRec t' false) := by
  cases p with
  | nil => exact ⟨t, hi⟩
  | cons j q =>
    cases q with
    | nil => exact ⟨t, hi⟩
    | cons k q2 =>
      by_cases hij : j = i
      · subst hij
        simp only [allocAlong, hi]
        exact ⟨allocAlong t (k :: q2), fgetIdx_fsetIdx_self r j m _ _ hi⟩
      · exact ⟨t, by
          rw [fgetIdx_allocAlong_head_ne r (j :: k :: q2) i (by simpa using hij), hi]⟩

/-- A leaf write (at a position that really is a leaf) preserves pointer
liveness along every path. -/
theorem ptrsLive_setF (p : List Nat) :
    ∀ (q : List Nat) (r : FVal) (u : Val) (w : FVal),
      getF r p = some (.leaf u) → ptrsLive r q = true →
      ptrsLive (setF r p w) q = true := by
  induction p with
  | nil => intro q r u w hp hq; simpa [setF] using hq
  | cons i p ih =>
    intro q r u w hp hq
    cases p with
    | nil =>
      simp only [getF_one, Option.map_eq_some'] at hp
      obtain ⟨⟨m, v⟩, hmv, hv⟩ := hp
      simp only at hv
      subst hv
      cases q with
      | nil => rfl
      | cons j q2 =>
        cases q2 with
        | nil => rfl
        | cons k q3 =>
          by_cases hij : i = j
          · subst hij
            rw [ptrsLive_cons2, hmv] at hq
            exact absurd hq (by simp)
          · rw [ptrsLive_cons2] at hq ⊢
            simp only [setF]
            rw [fgetIdx_fsetIdx_ne r i j w hij]
            exact hq
    | cons i2 p2 =>
      simp only [getF] at hp
      match hf : fgetIdx r i with
      | some (m, .sub g) =>
        rw [hf] at hp
        cases q with
        | nil => rfl
        | cons j q2 =>
          cases q2 with
          | nil => rfl
          | cons k q3 =>
            by_cases hij : i = j
            · subst hij
              rw [ptrsLive_cons2, hf] at hq
              rw [ptrsLive_cons2]
              simp only [setF, hf]
              rw [fgetIdx_fsetIdx_self r i m _ _ hf]
              exact ih (k :: q3) g u w hp hq
            · rw [ptrsLive_cons2] at hq ⊢
              simp only [setF, hf]
              rw [fgetIdx_fsetIdx_ne r i j _ hij]
              exact hq
      | some (m, .ptrRec g b) =>
        rw [hf] at hp
        cases q with
        | nil => rfl
        | cons j q2 =>
          cases q2 with
          | nil => rfl
          | cons k q3 =>
            by_cases hij : i = j
            · subst hij
              rw [ptrsLive_cons2, hf] at hq
              rw [ptrsLive_cons2]
              simp only [setF, hf]
              rw [fgetIdx_fsetIdx_self r i m _ _ hf]
              simp only [Bool.and_eq_true] at hq ⊢
              exact ⟨hq.1, ih (k :: q3) g u w hp hq.2⟩
            · rw [ptrsLive_cons2] at hq ⊢
              simp only [setF, hf]
              rw [fgetIdx_fsetIdx_ne r i j _ hij]
              exact hq
      | some (m, .leaf y) => rw [hf] at hp; exact absurd hp (by simp)
      | some (m, .fnil) => rw [hf] at hp; exact absurd hp (by simp)
      | some (m, .fcons m2 v2 r2) => rw [hf] at hp; exact absurd hp (by simp)
      | some (m, .unsupported t) => rw [hf] at hp; exact absurd hp (by simp)
      | none => rw [hf] at hp; exact absurd hp (by simp)

/-- Allocation preserves pointer liveness (it only turns nil pointers into
live ones). -/
theorem ptrsLive_allocAlong (p : List Nat) :
    ∀ (q : List Nat) (r : FVal), ptrsLive r q = true →
      ptrsLive (allocAlong r p) q = true := by
  induction p with
  | nil => intro q r hq; simpa [allocAlong] using hq
  | cons i p ih =>
    intro q r hq
    cases p with
    | nil => simpa [allocAlong] using hq
    | cons i2 p2 =>
      cases q with
      | nil => rfl
      | cons j q2 =>
        cases q2 with
        | nil => rfl
        | cons k q3 =>
          rw [ptrsLive_cons2] at hq
          rw [ptrsLive_cons2]
          simp only [allocAlong]
          match hf : fgetIdx r i with
          | some (m, .sub g) =>
            by_cases hij : i = j
            · subst hij
              rw [hf] at hq
              rw [fgetIdx_fsetIdx_self r i m _ _ hf]
              exact ih (k :: q3) g hq
            · rw [fgetIdx_fsetIdx_ne r i j _ hij]
              exact hq
          | some (m, .ptrRec g true) =>
            by_cases hij : i = j
            · subst hij
              rw [hf] at hq
              exact absurd hq (by simp)
            · rw [fgetIdx_fsetIdx_ne r i j _ hij]
              exact hq
          | some (m, .ptrRec g false) =>
            by_cases hij : i = j
            · subst hij
              rw [hf] at hq
              rw [fgetIdx_fsetIdx_self r i m _ _ hf]
              simp only [Bool.and_eq_true] at hq ⊢
              exact ⟨rfl, ih (k :: q3) g hq.2⟩
            · rw [fgetIdx_fsetIdx_ne r i j _ hij]
              exact hq
          | some (m, .leaf y) => exact hq
          | some (m, .fnil) => exact hq
          | some (m, .fcons m2 v2 r2) => exact hq
          | some (m, .unsupported t) => exact hq
          | none => exact hq

/-- Allocation leaves every live leaf untouched. -/
theorem getF_allocAlong (p : List Nat) :
    ∀ (q : List Nat) (r : FVal) (u : Val), ptrsLive r q = true →
      getF r q = some (.leaf u) → getF (allocAlong r p) q = some (.leaf u) := by
  induction p with
  | nil => intro q r u _ hq; simpa [allocAlong] using hq
  | cons i p ih =>
    intro q r u hlive hq
    cases p with
    | nil => simpa [allocAlong] using hq
    | cons i2 p2 =>
      cases q with
      | nil => simpa [getF] using hq
      | cons j q2 =>
        simp only [allocAlong]
        match hf : fgetIdx r i with
        | some (m, .sub g) =>
          by_cases hij : i = j
          · subst hij
            cases q2 with
            | nil =>
              rw [getF_one, hf] at hq
              exact absurd hq (by simp)
            | cons k q3 =>
              rw [getF_cons2, hf] at hq
              rw [ptrsLive_cons2, hf] at hlive
              rw [getF_cons2, fgetIdx_fsetIdx_self r i m _ _ hf]
              exact ih (k :: q3) g u hlive hq
          · cases q2 with
            | nil =>
              rw [getF_one, fgetIdx_fsetIdx_ne r i j _ hij, ← getF_one]
              exact hq
            | cons k q3 =>
              rw [getF_cons2, fgetIdx_fsetIdx_ne r i j _ hij, ← getF_cons2]
              exact hq
        | some (m, .ptrRec g true) =>
          by_cases hij : i = j
          · subst hij
            cases q2 with
            | nil =>
              rw [getF_one, hf] at hq
              exact absurd hq (by simp)
            | cons k q3 =>
              rw [ptrsLive_cons2, hf] at hlive
              exact absurd hlive (by simp)
          · cases q2 with
            | nil =>
              rw [getF_one, fgetIdx_fsetIdx_ne r i j _ hij, ← getF_one]
              exact hq
            | cons k q3 =>
              rw [getF_cons2, fgetIdx_fsetIdx_ne r i j _ hij, ← getF_cons2]
              exact hq
        | some (m, .ptrRec g false) =>
          by_cases hij : i = j
          · subst hij
            cases q2 with
            | nil =>
              rw [getF_one, hf] at hq
              exact absurd hq (by simp)
            | cons k q3 =>
              rw [getF_cons2, hf] at hq
              rw [ptrsLive_cons2, hf] at hlive
              simp only [Bool.true_and] at hlive
              rw [getF_cons2, fgetIdx_fsetIdx_self r i m _ _ hf]
              exact ih (k :: q3) g u (by simpa using hlive) hq
          · cases q2 with
            | nil =>
              rw [getF_one, fgetIdx_fsetIdx_ne r i j _ hij, ← getF_one]
              exact hq
            | cons k q3 =>
              rw [getF_cons2, fgetIdx_fsetIdx_ne r i j _ hij, ← getF_cons2]
              exact hq
        | some (m, .leaf y) => exact hq
        | some (m, .fnil) => exact hq
        | some (m, .fcons m2 v2 r2) => exact hq
        | some (m, .unsupported t) => exact hq
        | none => exact hq

theorem kindOf_kindDefault (k : FKind) : kindOf (kindDefault k) = k := by
  cases k <;> rfl

theorem kindOf_zeroVal (v : Val) : kindOf (zeroVal v) = kindOf v := by
  cases v <;> rfl

/-- Zeroing a value does not change its skeleton. -/
theorem skel_zeroF (r : FVal) : skel (zeroF r) = skel r := by
  induction r with
  | leaf v => simp [zeroF, skel, kindOf_zeroVal]
  | fnil => rfl
  | fcons m v r ihv ihr => simp [zeroF, skel, ihv, ihr]
  | sub g ih => simp [zeroF, skel, ih]
  | ptrRec g b ih => simp [zeroF, skel, ih]
  | unsupported t => rfl

/-- Field lookup commutes with taking skeletons. -/
theorem fgetIdx_skel (f : FVal) : ∀ i,
    fgetIdx (skel f) i = (fgetIdx f i).map (fun mv => (mv.1, skel mv.2)) := by
  induction f with
  | fcons m v r ihv ihr =>
    intro i
    cases i with
    | zero => rfl
    | succ n => simpa [skel, fgetIdx] using ihr n
  | leaf v => intro i; rfl
  | fnil => intro i; rfl
  | sub g ih => intro i; rfl
  | ptrRec g b ih => intro i; rfl
  | unsupported t => intro i; rfl

/-- Field update commutes with taking skeletons. -/
theorem fsetIdx_skel (f : FVal) : ∀ i w,
    skel (fsetIdx f i w) = fsetIdx (skel f) i (skel w) := by
  induction f with
  | fcons m v r ihv ihr =>
    intro i w
    cases i with
    | zero => rfl
    | succ n => simp [skel, fsetIdx, ihr n w]
  | leaf v => intro i w; rfl
  | fnil => intro i w; rfl
  | sub g ih => intro i w; rfl
  | ptrRec g b ih => intro i w; rfl
  | unsupported t => intro i w; rfl

/-- Reading a path in the skeleton reads the skeleton of the original value. -/
theorem getF_skel (p : List Nat) : ∀ (r : FVal),
    getF (skel r) p = (getF r p).map skel := by
  induction p with
  | nil => intro r; rfl
  | cons i p ih =>
    intro r
    cases p with
    | nil =>
      rw [getF_one, getF_one, fgetIdx_skel]
      cases fgetIdx r i <;> rfl
    | cons j q =>
      rw [getF_cons2, getF_cons2, fgetIdx_skel]
      match hf : fgetIdx r i with
      | some (m, .sub g) => simpa [skel] using ih g
      | some (m, .ptrRec g b) => simpa [skel] using ih g
      | some (m, .leaf y) => rfl
      | some (m, .fnil) => rfl
      | some (m, .fcons m2 v2 r2) => rfl
      | some (m, .unsupported t) => rfl
      | none => rfl

/-- Setting a field to the value it already holds is the identity. -/
theorem fsetIdx_self_of_fgetIdx (f : FVal) : ∀ i m v,
    fgetIdx f i = some (m, v) → fsetIdx f i v = f := by
  induction f with
  | fcons m2 v2 r2 ihv ihr =>
    intro i m v h
    cases i with
    | zero =>
      simp only [fgetIdx, Option.some_inj] at h
      injection h with h1 h2
      simp [fsetIdx, h2]
    | succ n =>
      simp only [fgetIdx] at h
      simp [fsetIdx, ihr n m v h]
  | leaf y => intro i m v h; simp [fgetIdx] at h
  | fnil => intro i m v h; simp [fgetIdx] at h
  | sub g ih => intro i m v h; simp [fgetIdx] at h
  | ptrRec g b ih => intro i m v h; simp [fgetIdx] at h
  | unsupported t => intro i m v h; simp [fgetIdx] at h

/-- Overwriting a leaf with a value of the same kind does not change the
record's skeleton. -/
theorem skel_setF_leaf (p : List Nat) : ∀ (r : FVal) (u v : Val),
    getF r p = some (.leaf u) → kindOf v = kindOf u →
    skel (setF r p (.leaf v)) = skel r := by
  induction p with
  | nil => intro r u v hp _; rfl
  | cons i p ih =>
    intro r u v hp hk
    cases p with
    | nil =>
      simp only [getF_one, Option.map_eq_some'] at hp
      obtain ⟨⟨m, x⟩, hmv, hx⟩ := hp
      simp only at hx
      subst hx
      simp only [setF]
      rw [fsetIdx_skel]
      have hv : skel (FVal.leaf v) = skel (FVal.leaf u) := by simp [skel, hk]
      rw [hv]
      have hif := fgetIdx_skel r i
      rw [hmv] at hif
      exact fsetIdx_self_of_fgetIdx (skel r) i m (skel (FVal.leaf u)) hif
    | cons j q =>
      simp only [getF] at hp
      match hf : fgetIdx r i with
      | some (m, .sub g) =>
        rw [hf] at hp
        simp only [setF, hf]
        rw [fsetIdx_skel]
        have hin : skel (FVal.sub (setF g (j :: q) (.leaf v))) = skel (FVal.sub g) := by
          simp only [skel]
          rw [ih g u v hp hk]
        rw [hin]
        have hif := fgetIdx_skel r i
        rw [hf] at hif
        exact fsetIdx_self_of_fgetIdx (skel r) i m (skel (FVal.sub g)) hif
      | some (m, .ptrRec g b) =>
        rw [hf] at hp
        simp only [setF, hf]
        rw [fsetIdx_skel]
        have hin : skel (FVal.ptrRec (setF g (j :: q) (.leaf v)) b) =
            skel (FVal.ptrRec g b) := by
          simp only [skel]
          rw [ih g u v hp hk]
        rw [hin]
        have hif := fgetIdx_skel r i
        rw [hf] at hif
        exact fsetIdx_self_of_fgetIdx (skel r) i m (skel (FVal.ptrRec g b)) hif
      | some (m, .leaf y) => rw [hf] at hp; exact absurd hp (by simp)
      | some (m, .fnil) => rw [hf] at hp; exact absurd hp (by simp)
      | some (m, .fcons m2 v2 r2) => rw [hf] at hp; exact absurd hp (by simp)
      | some (m, .unsupported t) => rw [hf] at hp; exact absurd hp (by simp)
      | none => rw [hf] at hp; exact absurd hp (by simp)

/-- Allocation does not change the record's skeleton. -/
theorem skel_allocAlong (p : List Nat) : ∀ (r : FVal),
    skel (allocAlong r p) = skel r := by
  induction p with
  | nil => intro r; rfl
  | cons i p ih =>
    intro r
    cases p with
    | nil => rfl
    | cons j q =>
      simp only [allocAlong]
      match hf : fgetIdx r i with
      | some (m, .sub g) =>
        rw [fsetIdx_skel]
        have hin : skel (FVal.sub (allocAlong g (j :: q))) = skel (FVal.sub g) := by
          simp only [skel]
          rw [ih g]
        rw [hin]
        have hif := fgetIdx_skel r i
        rw [hf] at hif
        exact fsetIdx_self_of_fgetIdx (skel r) i m _ hif
      | some (m, .ptrRec g true) =>
        rw [fsetIdx_skel]
        have hin : skel (FVal.ptrRec (allocAlong (zeroF g) (j :: q)) false) =
            skel (FVal.ptrRec g true) := by
          simp only [skel]
          rw [ih (zeroF g), skel_zeroF]
        rw [hin]
        have hif := fgetIdx_skel r i
        rw [hf] at hif
        exact fsetIdx_self_of_fgetIdx (skel r) i m _ hif
      | some (m, .ptrRec g false) =>
        rw [fsetIdx_skel]
        have hin : skel (FVal.ptrRec (allocAlong g (j :: q)) false) =
            skel (FVal.ptrRec g false) := by
          simp only [skel]
          rw [ih g]
        rw [hin]
        have hif := fgetIdx_skel r i
        rw [hf] at hif
        exact fsetIdx_self_of_fgetIdx (skel r) i m _ hif
      | some (m, .leaf y) => rfl
      | some (m, .fnil) => rfl
      | some (m, .fcons m2 v2 r2) => rfl
      | some (m, .unsupported t) => rfl
      | none => rfl

/-- TOML exact-name matching reads only the skeleton. -/
theorem findTomlExact_fcons (m : FieldMeta) (v r : FVal) (key : String) (i : Nat) :
    findTomlExact (.fcons m v r) key i =
      if m.canSet ∧ effTomlName m = some key then some [i]
      else if m.canSet ∧ m.anon ∧ (effTomlName m).isSome then
        match v with
        | .sub g =>
          match findTomlExact g key 0 with
          | some p => some (i :: p)
          | none => findTomlExact r key (i+1)
        | .ptrRec g _ =>
          match findTomlExact g key 0 with
          | some p => some (i :: p)
          | none => findTomlExact r key (i+1)
        | _ => findTomlExact r key (i+1)
      else findTomlExact r key (i+1) := by
  rw [findTomlExact.eq_def]

/-- TOML exact-name matching reads only the skeleton. -/
theorem findTomlExact_skel (f : FVal) (key : String) (i : Nat) :
    findTomlExact (skel f) key i = findTomlExact f key i := by
  induction f, key, i using findTomlExact.induct with
  | case1 m v r key i h =>
    have hs : skel (FVal.fcons m v r) = .fcons m (skel v) (skel r) := rfl
    rw [hs, findTomlExact_fcons, findTomlExact_fcons, if_pos h, if_pos h]
  | case2 m r key i h1 h2 g p hx ih =>
    have hs : skel (FVal.fcons m (FVal.sub g) r) =
        .fcons m (FVal.sub (skel g)) (skel r) := rfl
    rw [hs, findTomlExact_fcons, findTomlExact_fcons,
      if_neg h1, if_neg h1, if_pos h2, if_pos h2]
    simp only [ih, hx]
  | case3 m r key i h1 h2 g hx ihg ihr =>
    have hs : skel (FVal.fcons m (FVal.sub g) r) =
        .fcons m (FVal.sub (skel g)) (skel r) := rfl
    rw [hs, findTomlExact_fcons, findTomlExact_fcons,
      if_neg h1, if_neg h1, if_pos h2, if_pos h2]
    simp only [ihg, hx, ihr]
  | case4 m r key i h1 h2 g b p hx ih =>
    have hs : skel (FVal.fcons m (FVal.ptrRec g b) r) =
        .fcons m (FVal.ptrRec (skel g) true) (skel r) := rfl
    rw [hs, findTomlExact_fcons, findTomlExact_fcons,
      if_neg h1, if_neg h1, if_pos h2, if_pos h2]
    simp only [ih, hx]
  | case5 m r key i h1 h2 g b hx ihg ihr =>
    have hs : skel (FVal.fcons m (FVal.ptrRec g b) r) =
        .fcons m (FVal.ptrRec (skel g) true) (skel r) := rfl
    rw [hs, findTomlExact_fcons, findTomlExact_fcons,
      if_neg h1, if_neg h1, if_pos h2, if_pos h2]
    simp only [ihg, hx, ihr]
  | case6 m v r key i h1 h2 hx1 hx2 ih =>
    have hs : skel (FVal.fcons m v r) = .fcons m (skel v) (skel r) := rfl
    rw [hs, findTomlExact_fcons, findTomlExact_fcons,
      if_neg h1, if_neg h1, if_pos h2, if_pos h2]
    cases v with
    | sub g => exact absurd rfl (hx1 g)
    | ptrRec g b => exact absurd rfl (hx2 g b)
    | leaf y => exact ih
    | fnil => exact ih
    | fcons m2 v2 r2 => exact ih
    | unsupported t => exact ih
  | case7 m v r key i h1 h2 ih =>
    have hs : skel (FVal.fcons m v r) = .fcons m (skel v) (skel r) := rfl
    rw [hs, findTomlExact_fcons, findTomlExact_fcons,
      if_neg h1, if_neg h1, if_neg h2, if_neg h2]
    exact ih
  | case8 t key i hx =>
    cases t with
    | fcons m v r => exact absurd rfl (hx m v r)
    | leaf y => rfl
    | fnil => rfl
    | sub g => rfl
    | ptrRec g b => rfl
    | unsupported s => rfl

theorem findTomlCI_fcons (m : FieldMeta) (v r : FVal) (key : String) (i : Nat) :
    findTomlCI (.fcons m v r) key i =
      if m.canSet ∧ (effTomlName m).map lowerStr = some (lowerStr key) then some [i]
      else if m.canSet ∧ m.anon ∧ (effTomlName m).isSome then
        match v with
        | .sub g =>
          match findTomlCI g key 0 with
          | some p => some (i :: p)
          | none => findTomlCI r key (i+1)
        | .ptrRec g _ =>
          match findTomlCI g key 0 with
          | some p => some (i :: p)
          | none => findTomlCI r key (i+1)
        | _ => findTomlCI r key (i+1)
      else findTomlCI r key (i+1) := by
  rw [findTomlCI.eq_def]

/-- TOML case-insensitive matching reads only the skeleton. -/
theorem findTomlCI_skel (f : FVal) (key : String) (i : Nat) :
    findTomlCI (skel f) key i = findTomlCI f key i := by
  induction f, key, i using findTomlCI.induct with
  | case1 m v r key i h =>
    have hs : skel (FVal.fcons m v r) = .fcons m (skel v) (skel r) := rfl
    rw [hs, findTomlCI_fcons, findTomlCI_fcons, if_pos h, if_pos h]
  | case2 m r key i h1 h2 g p hx ih =>
    have hs : skel (FVal.fcons m (FVal.sub g) r) =
        .fcons m (FVal.sub (skel g)) (skel r) := rfl
    rw [hs, findTomlCI_fcons, findTomlCI_fcons,
      if_neg h1, if_neg h1, if_pos h2, if_pos h2]
    simp only [ih, hx]
  | case3 m r key i h1 h2 g hx ihg ihr =>
    have hs : skel (FVal.fcons m (FVal.sub g) r) =
        .fcons m (FVal.sub (skel g)) (skel r) := rfl
    rw [hs, findTomlCI_fcons, findTomlCI_fcons,
      if_neg h1, if_neg h1, if_pos h2, if_pos h2]
    simp only [ihg, hx, ihr]
  | case4 m r key i h1 h2 g b p hx ih =>
    have hs : skel (FVal.fcons m (FVal.ptrRec g b) r) =
        .fcons m (FVal.ptrRec (skel g) true) (skel r) := rfl
    rw [hs, findTomlCI_fcons, findTomlCI_fcons,
      if_neg h1, if_neg h1, if_pos h2, if_pos h2]
    simp only [ih, hx]
  | case5 m r key i h1 h2 g b hx ihg ihr =>
    have hs : skel (FVal.fcons m (FVal.ptrRec g b) r) =
        .fcons m (FVal.ptrRec (skel g) true) (skel r) := rfl
    rw [hs, findTomlCI_fcons, findTomlCI_fcons,
      if_neg h1, if_neg h1, if_pos h2, if_pos h2]
    simp only [ihg, hx, ihr]
  | case6 m v r key i h1 h2 hx1 hx2 ih =>
    have hs : skel (FVal.fcons m v r) = .fcons m (skel v) (skel r) := rfl
    rw [hs, findTomlCI_fcons, findTomlCI_fcons,
      if_neg h1, if_neg h1, if_pos h2, if_pos h2]
    cases v with
    | sub g => exact absurd rfl (hx1 g)
    | ptrRec g b => exact absurd rfl (hx2 g b)
    | leaf y => exact ih
    | fnil => exact ih
    | fcons m2 v2 r2 => exact ih
    | unsupported t => exact ih
  | case7 m v r key i h1 h2 ih =>
    have hs : skel (FVal.fcons m v r) = .fcons m (skel v) (skel r) := rfl
    rw [hs, findTomlCI_fcons, findTomlCI_fcons,
      if_neg h1, if_neg h1, if_neg h2, if_neg h2]
    exact ih
  | case8 t key i hx =>
    cases t with
    | fcons m v r => exact absurd rfl (hx m v r)
    | leaf y => rfl
    | fnil => rfl
    | sub g => rfl
    | ptrRec g b => rfl
    | unsupported s => rfl

/-- TOML field matching reads only the skeleton. -/
theorem findTomlIdx_skel (f : FVal) (key : String) :
    findTomlIdx (skel f) key = findTomlIdx f key := by
  unfold findTomlIdx
  rw [findTomlExact_skel, findTomlCI_skel]

/-- Unfolding of resolution at a single key. -/
theorem resolveKeys_one (f : FVal) (k : String) :
    resolveKeys f [k] =
      match findTomlIdx f k with
      | none => ResOut.unmatched
      | some p => ResOut.found p := by
  rw [resolveKeys.eq_def]

/-- Unfolding of resolution at two or more keys. -/
theorem resolveKeys_cons2 (f : FVal) (k k2 : String) (krest : List String) :
    resolveKeys f (k :: k2 :: krest) =
      match findTomlIdx f k with
      | none => ResOut.unmatched
      | some p =>
        match getF f p with
        | some (.sub g) => (resolveKeys g (k2 :: krest)).push p
        | some (.ptrRec g _) => (resolveKeys g (k2 :: krest)).push p
        | some (.unsupported _) => ResOut.unmatched
        | _ => ResOut.badShape := by
  rw [resolveKeys.eq_def]

/-- TOML key-path resolution reads only the skeleton. -/
theorem resolveKeys_skel (ks : List String) : ∀ (f : FVal),
    resolveKeys (skel f) ks = resolveKeys f ks := by
  induction ks with
  | nil => intro f; rfl
  | cons k ks ih =>
    intro f
    cases ks with
    | nil =>
      rw [resolveKeys_one, resolveKeys_one, findTomlIdx_skel]
    | cons k2 krest =>
      rw [resolveKeys_cons2, resolveKeys_cons2, findTomlIdx_skel]
      cases hi : findTomlIdx f k with
      | none => rfl
      | some p =>
        dsimp only
        rw [getF_skel]
        cases hg : getF f p with
        | none => rfl
        | some v =>
          cases v with
          | sub g => simpa [skel] using congrArg (fun o => ResOut.push p o) (ih g)
          | ptrRec g b => simpa [skel] using congrArg (fun o => ResOut.push p o) (ih g)
          | leaf y => rfl
          | fnil => rfl
          | fcons m2 v2 r2 => rfl
          | unsupported t => rfl

/-- Records with the same skeleton resolve every TOML entry identically, so
the file layer targets the same leaves in both. -/
theorem fileSets_eq_of_skel (r r2 : FVal) (es : List TomlEntry) (p : List Nat)
    (h : skel r = skel r2) : fileSets r es p = fileSets r2 es p := by
  have hres : ∀ ks, resolveKeys r ks = resolveKeys r2 ks := by
    intro ks
    rw [← resolveKeys_skel ks r, h, resolveKeys_skel]
  induction es with
  | nil => rfl
  | cons e rest ih =>
    show (match fileSets r rest p with
      | some v => some v
      | none => if resolveKeys r e.keys = ResOut.found p then some e.tval
                else none) = _
    rw [ih, hres e.keys]
    rfl

/-- Applying one decoded entry does not change the record's skeleton. -/
theorem skel_decodeEntry (r : FVal) (e : TomlEntry) (r2 : FVal) (res : Option PErr)
    (h : decodeEntry r e = (r2, res)) : skel r2 = skel r := by
  unfold decodeEntry at h
  cases hres : resolveKeys r e.keys with
  | unmatched => rw [hres] at h; cases h; rfl
  | badShape => rw [hres] at h; cases h; rfl
  | found p =>
    rw [hres] at h
    dsimp only at h
    cases hg : getF (allocAlong r p) p with
    | none => rw [hg] at h; cases h; exact skel_allocAlong p r
    | some v =>
      rw [hg] at h
      cases v with
      | leaf u =>
        by_cases hk : kindOf u = kindOf e.tval
        · simp only [hk, if_true] at h
          cases h
          rw [skel_setF_leaf p (allocAlong r p) u e.tval hg hk.symm]
          exact skel_allocAlong p r
        · simp only [hk, if_false] at h
          cases h
          exact skel_allocAlong p r
      | fnil => cases h; exact skel_allocAlong p r
      | fcons m2 v2 r3 => cases h; exact skel_allocAlong p r
      | sub g => cases h; exact skel_allocAlong p r
      | ptrRec g b => cases h; exact skel_allocAlong p r
      | unsupported t => cases h; rfl

/-- Folding the decoded entries does not change the record's skeleton. -/
theorem skel_decodeDoc (es : List TomlEntry) : ∀ (r r2 : FVal) (res : Option PErr),
    decodeDoc r es = (r2, res) → skel r2 = skel r := by
  induction es with
  | nil => intro r r2 res h; cases h; rfl
  | cons e rest ih =>
    intro r r2 res h
    unfold decodeDoc at h
    cases hde : decodeEntry r e with
    | mk r1 res1 =>
      rw [hde] at h
      cases res1 with
      | none =>
        exact (ih r1 r2 res h).trans (skel_decodeEntry r e r1 none hde)
      | some er =>
        cases h
        exact skel_decodeEntry r e r2 (some er) hde

/-- Effect of one successfully applied entry on a live leaf: the resolved leaf
receives the entry's value, every other live leaf is untouched. -/
theorem decodeEntry_getF (r : FVal) (e : TomlEntry) (r2 : FVal)
    (hde : decodeEntry r e = (r2, none))
    (q : List Nat) (u : Val) (hq : getF r q = some (.leaf u))
    (hl : ptrsLive r q = true) :
    getF r2 q = some (.leaf (if resolveKeys r e.keys = .found q then e.tval else u)) ∧
    ptrsLive r2 q = true := by
  unfold decodeEntry at hde
  cases hres : resolveKeys r e.keys with
  | unmatched =>
    rw [hres] at hde
    cases hde
    refine ⟨?_, hl⟩
    rw [if_neg (by intro hcontra; cases hcontra)]
    exact hq
  | badShape => rw [hres] at hde; cases hde
  | found p =>
    rw [hres] at hde
    dsimp only at hde
    have hq1 : getF (allocAlong r p) q = some (.leaf u) := getF_allocAlong p q r u hl hq
    have hl1 : ptrsLive (allocAlong r p) q = true := ptrsLive_allocAlong p q r hl
    cases hg : getF (allocAlong r p) p with
    | none => rw [hg] at hde; cases hde
    | some v =>
      rw [hg] at hde
      cases v with
      | leaf w =>
        by_cases hk : kindOf w = kindOf e.tval
        · simp only [hk, if_true] at hde
          cases hde
          by_cases hpq : p = q
          · subst hpq
            refine ⟨?_, ptrsLive_setF p p _ w _ hg hl1⟩
            rw [if_pos rfl]
            exact getF_setF_self p _ w _ hg
          · refine ⟨?_, ptrsLive_setF p q _ w _ hg hl1⟩
            rw [if_neg (fun hcontra => hpq (by cases hcontra; rfl))]
            exact getF_setF_ne p q _ w u _ hg hq1 hpq
        · simp only [hk, if_false] at hde
          cases hde
      | fnil => cases hde
      | fcons m2 v2 r3 => cases hde
      | sub g => cases hde
      | ptrRec g b => cases hde
      | unsupported t =>
        cases hde
        by_cases hpq : p = q
        · subst hpq
          rw [hq1] at hg
          cases hg
        · refine ⟨?_, hl⟩
          rw [if_neg (fun hcontra => hpq (by cases hcontra; rfl))]
          exact hq

/-- Effect of a successful decode on a live leaf: the last entry resolving to
it wins, a leaf no entry resolves to keeps its value. -/
theorem decodeDoc_getF (es : List TomlEntry) : ∀ (r c2 : FVal),
    decodeDoc r es = (c2, none) →
    ∀ (q : List Nat) (u : Val), getF r q = some (.leaf u) → ptrsLive r q = true →
    getF c2 q = some (.leaf ((fileSets r es q).getD u)) ∧ ptrsLive c2 q = true := by
  induction es with
  | nil =>
    intro r c2 h q u hq hl
    cases h
    exact ⟨by simpa [fileSets] using hq, hl⟩
  | cons e rest ih =>
    intro r c2 h q u hq hl
    unfold decodeDoc at h
    cases hde : decodeEntry r e with
    | mk r1 res1 =>
      rw [hde] at h
      cases res1 with
      | some er => cases h
      | none =>
        obtain ⟨hq1, hl1⟩ := decodeEntry_getF r e r1 hde q u hq hl
        obtain ⟨hq2, hl2⟩ := ih r1 c2 h q _ hq1 hl1
        refine ⟨?_, hl2⟩
        rw [hq2]
        have hskel : skel r1 = skel r := skel_decodeEntry r e r1 none hde
        rw [fileSets_eq_of_skel r1 r rest q hskel]
        show _ = some (.leaf ((match fileSets r rest q with
          | some v => some v
          | none => if resolveKeys r e.keys = ResOut.found q then some e.tval
                    else none).getD u))
        cases hfs : fileSets r rest q with
        | some v => rfl
        | none =>
          by_cases hc : resolveKeys r e.keys = ResOut.found q
          · rw [if_pos hc, if_pos hc]
            rfl
          · rw [if_neg hc, if_neg hc]

/-- A decoded entry that does not resolve into the i-th field leaves that
field's slot untouched (whatever the outcome). -/
theorem decodeEntry_frame_head (r : FVal) (e : TomlEntry) (r2 : FVal)
    (res : Option PErr) (i : Nat)
    (hde : decodeEntry r e = (r2, res))
    (hav : ∀ pe, resolveKeys r e.keys = .found pe → pe.head? ≠ some i) :
    fgetIdx r2 i = fgetIdx r i := by
  unfold decodeEntry at hde
  cases hres : resolveKeys r e.keys with
  | unmatched => rw [hres] at hde; cases hde; rfl
  | badShape => rw [hres] at hde; cases hde; rfl
  | found p =>
    rw [hres] at hde
    dsimp only at hde
    have hhead : p.head? ≠ some i := hav p hres
    have halloc : fgetIdx (allocAlong r p) i = fgetIdx r i :=
      fgetIdx_allocAlong_head_ne r p i hhead
    cases hg : getF (allocAlong r p) p with
    | none => rw [hg] at hde; cases hde; exact halloc
    | some v =>
      rw [hg] at hde
      cases v with
      | leaf w =>
        by_cases hk : kindOf w = kindOf e.tval
        · simp only [hk, if_true] at hde
          cases hde
          rw [fgetIdx_setF_head_ne (allocAlong r p) p _ i hhead]
          exact halloc
        · simp only [hk, if_false] at hde
          cases hde
          exact halloc
      | fnil => cases hde; exact halloc
      | fcons m2 v2 r3 => cases hde; exact halloc
      | sub g => cases hde; exact halloc
      | ptrRec g b => cases hde; exact halloc
      | unsupported t => cases hde; rfl

/-- A decode whose entries never resolve into the i-th field leaves that
field's slot untouched (whatever the outcome). -/
theorem decodeDoc_frame_head (es : List TomlEntry) :
    ∀ (r c2 : FVal) (res : Option PErr) (i : Nat),
    decodeDoc r es = (c2, res) →
    (∀ e ∈ es, ∀ pe, resolveKeys r e.keys = .found pe → pe.head? ≠ some i) →
    fgetIdx c2 i = fgetIdx r i := by
  induction es with
  | nil => intro r c2 res i h _; cases h; rfl
  | cons e rest ih =>
    intro r c2 res i h hav
    unfold decodeDoc at h
    cases hde : decodeEntry r e with
    | mk r1 res1 =>
      rw [hde] at h
      have h1 : fgetIdx r1 i = fgetIdx r i :=
        decodeEntry_frame_head r e r1 res1 i hde
          (fun pe hpe => hav e (by simp) pe hpe)
      cases res1 with
      | some er => cases h; exact h1
      | none =>
        have hskel : skel r1 = skel r := skel_decodeEntry r e r1 none hde
        have hav1 : ∀ e2 ∈ rest, ∀ pe, resolveKeys r1 e2.keys = .found pe →
            pe.head? ≠ some i := by
          intro e2 he2 pe hpe
          refine hav e2 (by simp [he2]) pe ?_
          rw [← resolveKeys_skel e2.keys r, ← hskel, resolveKeys_skel]
          exact hpe
        exact (ih r1 c2 res i h hav1).trans h1

/-- A decoded entry keeps a non-nil pointer field non-nil. -/
theorem decodeEntry_ptrFalse (r : FVal) (e : TomlEntry) (r2 : FVal)
    (res : Option PErr) (i : Nat) (m : FieldMeta) (t : FVal)
    (hde : decodeEntry r e = (r2, res))
    (hi : fgetIdx r i = some (m, .ptrRec t false)) :
    ∃ t2, fgetIdx r2 i = some (m, .ptrRec t2 false) := by
  unfold decodeEntry at hde
  cases hres : resolveKeys r e.keys with
  | unmatched => rw [hres] at hde; cases hde; exact ⟨t, hi⟩
  | badShape => rw [hres] at hde; cases hde; exact ⟨t, hi⟩
  | found p =>
    rw [hres] at hde
    dsimp only at hde
    obtain ⟨t1, ht1⟩ := fgetIdx_allocAlong_ptrFalse r p i m t hi
    cases hg : getF (allocAlong r p) p with
    | none => rw [hg] at hde; cases hde; exact ⟨t1, ht1⟩
    | some v =>
      rw [hg] at hde
      cases v with
      | leaf w =>
        by_cases hk : kindOf w = kindOf e.tval
        · simp only [hk, if_true] at hde
          cases hde
          exact fgetIdx_setF_ptrFalse (allocAlong r p) p _ i m t1 w hg ht1
        · simp only [hk, if_false] at hde
          cases hde
          exact ⟨t1, ht1⟩
      | fnil => cases hde; exact ⟨t1, ht1⟩
      | fcons m2 v2 r3 => cases hde; exact ⟨t1, ht1⟩
      | sub g => cases hde; exact ⟨t1, ht1⟩
      | ptrRec g b => cases hde; exact ⟨t1, ht1⟩
      | unsupported tt => cases hde; exact ⟨t, hi⟩

/-- A decode keeps a non-nil pointer field non-nil (whatever the outcome). -/
theorem decodeDoc_ptrFalse (es : List TomlEntry) :
    ∀ (r c2 : FVal) (res : Option PErr) (i : Nat) (m : FieldMeta) (t : FVal),
    decodeDoc r es = (c2, res) →
    fgetIdx r i = some (m, .ptrRec t false) →
    ∃ t2, fgetIdx c2 i = some (m, .ptrRec t2 false) := by
  induction es with
  | nil => intro r c2 res i m t h hi; cases h; exact ⟨t, hi⟩
  | cons e rest ih =>
    intro r c2 res i m t h hi
    unfold decodeDoc at h
    cases hde : decodeEntry r e with
    | mk r1 res1 =>
      rw [hde] at h
      obtain ⟨t1, ht1⟩ := decodeEntry_ptrFalse r e r1 res1 i m t hde hi
      cases res1 with
      | some er => cases h; exact ⟨t1, ht1⟩
      | none => exact ih r1 c2 res i m t1 h ht1

theorem getF_fcons_succ (m : FieldMeta) (v rest : FVal) (j : Nat) (tl : List Nat) :
    getF (.fcons m v rest) ((j+1) :: tl) = getF rest (j :: tl) := by
  cases tl <;> rfl

theorem ptrsLive_fcons_succ (m : FieldMeta) (v rest : FVal) (j : Nat) (tl : List Nat) :
    ptrsLive (.fcons m v rest) ((j+1) :: tl) = ptrsLive rest (j :: tl) := by
  cases tl <;> rfl

theorem append_cons_ne (base : List Nat) (a b : Nat) (t1 t2 : List Nat) (h : a ≠ b) :
    base ++ (a :: t1) ≠ base ++ (b :: t2) := by
  intro he
  have h2 := List.append_cancel_left he
  injection h2 with h3 _
  exact h h3

theorem zeroVal_idem (u : Val) : zeroVal (zeroVal u) = zeroVal u := by
  cases u <;> rfl

theorem leavesZero_zeroF (v : FVal) : leavesZero (zeroF v) = true := by
  induction v with
  | leaf u => simp [zeroF, leavesZero, zeroVal_idem]
  | fnil => rfl
  | fcons m v r ihv ihr => simp [zeroF, leavesZero, ihv, ihr]
  | sub g ih => simpa [zeroF, leavesZero] using ih
  | ptrRec g b ih => simpa [zeroF, leavesZero] using ih
  | unsupported t => rfl

/-- Lifting a nested walk's flag payloads through the enclosing field (the
nested record sits in field 0 of the remaining chain). -/
theorem payload_lift (m : FieldMeta) (vin rest : FVal) (C g' gin : FVal)
    (base : List Nat) (idx : Nat) (newG : List FlagSpec)
    (hm : m.canSet = true) (hname : flagNameOf m ≠ none)
    (hgw : ∀ j tl, getF C (0 :: j :: tl) = getF g' (j :: tl))
    (hlw : ∀ j tl, ptrsLive g' (j :: tl) = true → ptrsLive C (0 :: j :: tl) = true)
    (hpay : ∀ d ∈ newG, ∃ j tl, d.fpath = (base ++ [idx]) ++ ((0 + j) :: tl)
        ∧ getF g' (j :: tl) = some (.leaf d.defv)
        ∧ ptrsLive g' (j :: tl) = true
        ∧ d.kind = kindOf d.defv
        ∧ ∃ mv, fgetIdx gin j = some mv ∧ mv.1.canSet = true ∧ flagNameOf mv.1 ≠ none) :
    ∀ d ∈ newG, ∃ j tl, d.fpath = base ++ ((idx + j) :: tl)
        ∧ getF C (j :: tl) = some (.leaf d.defv)
        ∧ ptrsLive C (j :: tl) = true
        ∧ d.kind = kindOf d.defv
        ∧ ∃ mv, fgetIdx (.fcons m vin rest) j = some mv ∧ mv.1.canSet = true
            ∧ flagNameOf mv.1 ≠ none := by
  intro d hd
  obtain ⟨j, tl, hp, hg, hl, hk, _⟩ := hpay d hd
  refine ⟨0, j :: tl, ?_, ?_, ?_, hk, ⟨(m, vin), rfl, hm, hname⟩⟩
  · rw [hp, List.append_assoc]
    simp
  · rw [hgw]
    exact hg
  · exact hlw j tl hl

/-- Shifting the remaining chain's flag payloads past the field at the head. -/
theorem payload_shift (m : FieldMeta) (vin vout rest rest' : FVal)
    (base : List Nat) (idx : Nat) (new : List FlagSpec)
    (hpay : ∀ d ∈ new, ∃ j tl, d.fpath = base ++ ((idx + 1 + j) :: tl)
        ∧ getF rest' (j :: tl) = some (.leaf d.defv)
        ∧ ptrsLive rest' (j :: tl) = true
        ∧ d.kind = kindOf d.defv
        ∧ ∃ mv, fgetIdx rest j = some mv ∧ mv.1.canSet = true ∧ flagNameOf mv.1 ≠ none) :
    ∀ d ∈ new, ∃ j tl, d.fpath = base ++ ((idx + j) :: tl)
        ∧ getF (.fcons m vout rest') (j :: tl) = some (.leaf d.defv)
        ∧ ptrsLive (.fcons m vout rest') (j :: tl) = true
        ∧ d.kind = kindOf d.defv
        ∧ ∃ mv, fgetIdx (.fcons m vin rest) j = some mv ∧ mv.1.canSet = true
            ∧ flagNameOf mv.1 ≠ none := by
  intro d hd
  obtain ⟨j, tl, hp, hg, hl, hk, mv, hmv, hcs, hn⟩ := hpay d hd
  have harith : idx + 1 + j = idx + (j + 1) := by omega
  refine ⟨j + 1, tl, ?_, ?_, ?_, hk, mv, ?_, hcs, hn⟩
  · rw [hp, harith]
  · rw [getF_fcons_succ]
    exact hg
  · rw [ptrsLive_fcons_succ]
    exact hl
  · simpa [fgetIdx] using hmv

/-- Flags whose paths enter the head field never collide with flags whose
paths enter later fields. -/
theorem pairwise_paths_append (newG newR : List FlagSpec) (base : List Nat)
    (idx : Nat)
    (hG : ∀ d ∈ newG, ∃ j tl, d.fpath = base ++ ((idx + j) :: tl) ∧ j = 0)
    (hR : ∀ d ∈ newR, ∃ j tl, d.fpath = base ++ ((idx + (j + 1)) :: tl))
    (pG : newG.Pairwise (fun a b => a.fpath ≠ b.fpath))
    (pR : newR.Pairwise (fun a b => a.fpath ≠ b.fpath)) :
    (newG ++ newR).Pairwise (fun a b => a.fpath ≠ b.fpath) := by
  rw [List.pairwise_append]
  refine ⟨pG, pR, ?_⟩
  intro a ha b hb
  obtain ⟨j1, tl1, hp1, hj1⟩ := hG a ha
  obtain ⟨j2, tl2, hp2⟩ := hR b hb
  subst hj1
  rw [hp1, hp2]
  exact append_cons_ne base _ _ tl1 tl2 (by omega)

/-- Inversion of a successful flag registration. -/
theorem addFlag_ok (fs : FlagSet) (nm : String) (k : FKind) (p : List Nat)
    (desc : String) (dv : Val) (fs1 : FlagSet)
    (h : addFlag fs nm k p desc dv = .ok fs1) :
    hasFlag fs nm = false ∧ fs1 = fs ++ [⟨nm, k, p, usageFor k desc, dv⟩] := by
  unfold addFlag at h
  by_cases hh : hasFlag fs nm = true
  · simp [hh] at h
  · simp only [hh, if_false, Bool.not_eq_true] at h ⊢
    injection h with h1
    exact ⟨by simpa using hh, h1.symm⟩

theorem collectDescsZ_fcons (m : FieldMeta) (v r : FVal) (ns : String) :
    collectDescsZ (.fcons m v r) ns =
      (if m.canSet then
        match flagNameOf m with
        | none => []
        | some nm =>
          let newNS := if m.anon then ns else joinNS ns nm
          match v with
          | .leaf u => [(newNS, kindOf u, usageFor (kindOf u) (descOf m), zeroVal u)]
          | .sub g => collectDescsZ g newNS
          | .ptrRec t _ => collectDescsZ t newNS
          | _ => []
      else []) ++ collectDescsZ r ns := by
  rw [collectDescsZ.eq_def]

/-- What a successful walk of a freshly zero-allocated record guarantees: the
flag set grows by exactly the descriptors of the zero record; every new flag's
path addresses, inside the produced record, a live leaf holding the flag's
default (of the flag's kind) through a settable, non-excluded field; distinct
flags have distinct paths; and every leaf of the produced record is zero. -/
theorem regZero_ok_spec (fs : FlagSet) (f : FVal) (base : List Nat) (idx : Nat)
    (ns : String) :
    ∀ f' fs', regZero fs f base idx ns = (f', Except.ok fs') →
    ∃ new, fs' = fs ++ new
      ∧ new.map projFS = collectDescsZ f ns
      ∧ (∀ d ∈ new, ∃ j tl, d.fpath = base ++ ((idx + j) :: tl)
          ∧ getF f' (j :: tl) = some (.leaf d.defv)
          ∧ ptrsLive f' (j :: tl) = true
          ∧ d.kind = kindOf d.defv
          ∧ ∃ mv, fgetIdx f j = some mv ∧ mv.1.canSet = true ∧ flagNameOf mv.1 ≠ none)
      ∧ new.Pairwise (fun a b => a.fpath ≠ b.fpath)
      ∧ leavesZero f' = true := by
  induction fs, f, base, idx, ns using regZero.induct with
  | case1 fs base idx ns =>
    intro f' fs' h
    rw [regZero.eq_def] at h
    dsimp only at h
    injection h with h1 h2
    injection h2 with h2
    subst h1
    subst h2
    exact ⟨[], by simp, rfl, by simp, by simp, rfl⟩
  | case2 fs base idx ns m v rest hcs rest' res hsub ih =>
    intro f' fs' h
    rw [regZero.eq_def] at h
    simp only [hcs, if_true, hsub] at h
    injection h with h1 h2
    subst h1
    subst h2
    obtain ⟨new, hfs, hproj, hpay, hpw, hlz⟩ := ih rest' fs' hsub
    refine ⟨new, hfs, ?_, payload_shift m v (zeroF v) rest rest' base idx new hpay,
      hpw, ?_⟩
    · rw [collectDescsZ_fcons, if_neg (by simp [hcs])]
      simpa using hproj
    · show (leavesZero (zeroF v) && leavesZero rest') = true
      rw [leavesZero_zeroF, hlz]
      rfl
  | case3 fs base idx ns m v rest hcs hfn rest' res hsub ih =>
    intro f' fs' h
    rw [regZero.eq_def] at h
    simp only [if_neg hcs, hfn, hsub] at h
    injection h with h1 h2
    subst h1
    subst h2
    obtain ⟨new, hfs, hproj, hpay, hpw, hlz⟩ := ih rest' fs' hsub
    refine ⟨new, hfs, ?_, payload_shift m v (zeroF v) rest rest' base idx new hpay,
      hpw, ?_⟩
    · by_cases hcs2 : m.canSet = true
      · rw [collectDescsZ_fcons, if_pos hcs2, hfn]
        simpa using hproj
      · rw [collectDescsZ_fcons, if_neg hcs2]
        simpa using hproj
    · show (leavesZero (zeroF v) && leavesZero rest') = true
      rw [leavesZero_zeroF, hlz]
      rfl
  | case4 fs base idx ns m rest hcs t hfn NS u e haf =>
    intro f' fs' h
    rw [regZero.eq_def] at h
    simp only [if_neg hcs, hfn, haf] at h
    injection h with h1 h2
    cases h2
  | case5 fs base idx ns m rest hcs t hfn NS u fs1 haf rest' res hsub ih =>
    intro f' fs' h
    rw [regZero.eq_def] at h
    simp only [if_neg hcs, hfn, haf, hsub] at h
    injection h with h1 h2
    subst h1
    subst h2
    obtain ⟨hnoflag, hfs1⟩ := addFlag_ok _ _ _ _ _ _ _ haf
    obtain ⟨newR, hfsR, hprojR, hpayR, hpwR, hlzR⟩ := ih rest' fs' hsub
    refine ⟨⟨NS, kindOf u, base ++ [idx], usageFor (kindOf u) (descOf m),
      zeroVal u⟩ :: newR, ?_, ?_, ?_, ?_, ?_⟩
    · rw [hfsR, hfs1]
      simp
    · rw [List.map_cons, hprojR, collectDescsZ_fcons,
        if_pos (show m.canSet = true by simpa using hcs), hfn]
      rfl
    · intro d hd
      rw [List.mem_cons] at hd
      rcases hd with hd | hd
      · subst hd
        refine ⟨0, [], rfl, rfl, rfl, (kindOf_zeroVal u).symm,
          ⟨(m, FVal.leaf u), rfl, by simpa using hcs, by simp [hfn]⟩⟩
      · exact payload_shift m (FVal.leaf u) (FVal.leaf (zeroVal u)) rest rest'
          base idx newR hpayR d hd
    · refine pairwise_paths_append
        [⟨NS, kindOf u, base ++ [idx], usageFor (kindOf u) (descOf m), zeroVal u⟩]
        newR base idx ?_ ?_ ?_ hpwR
      · intro d hd
        rw [List.mem_singleton] at hd
        subst hd
        exact ⟨0, [], rfl, rfl⟩
      · intro d hd
        obtain ⟨j, tl, hp, _, _, _, _⟩ := hpayR d hd
        have harith : idx + 1 + j = idx + (j + 1) := by omega
        exact ⟨j, tl, by rw [hp, harith]⟩
      · simp
    · show (leavesZero (FVal.leaf (zeroVal u)) && leavesZero rest') = true
      rw [hlzR]
      simp [leavesZero, zeroVal_idem]
  | case6 fs base idx ns m rest hcs t hfn NS g g' e hgsub ih =>
    intro f' fs' h
    rw [regZero.eq_def] at h
    simp only [if_neg hcs, hfn, hgsub] at h
    injection h with h1 h2
    cases h2
  | case7 fs base idx ns m rest hcs t hfn NS g g' fs1 hgsub rest' res hsub ihg ihr =>
    intro f' fs' h
    rw [regZero.eq_def] at h
    simp only [if_neg hcs, hfn, hgsub, hsub] at h
    injection h with h1 h2
    subst h1
    subst h2
    obtain ⟨newG, hfsG, hprojG, hpayG, hpwG, hlzG⟩ := ihg g' fs1 hgsub
    obtain ⟨newR, hfsR, hprojR, hpayR, hpwR, hlzR⟩ := ihr rest' fs' hsub
    have hlift := payload_lift m (FVal.sub g) rest (.fcons m (.sub g') rest') g' g
      base idx newG (by simpa using hcs) (by simp [hfn])
      (fun j tl => rfl) (fun j tl hl => hl) hpayG
    refine ⟨newG ++ newR, ?_, ?_, ?_, ?_, ?_⟩
    · rw [hfsR, hfsG]
      simp
    · rw [List.map_append, hprojG, hprojR, collectDescsZ_fcons,
        if_pos (show m.canSet = true by simpa using hcs), hfn]
    · intro d hd
      rw [List.mem_append] at hd
      rcases hd with hd | hd
      · exact hlift d hd
      · exact payload_shift m (FVal.sub g) (FVal.sub g') rest rest'
          base idx newR hpayR d hd
    · refine pairwise_paths_append newG newR base idx ?_ ?_ hpwG hpwR
      · intro d hd
        obtain ⟨j2, tl2, hp2, _⟩ := hpayG d hd
        refine ⟨0, j2 :: tl2, ?_, rfl⟩
        rw [hp2, List.append_assoc]
        simp
      · intro d hd
        obtain ⟨j, tl, hp, _, _, _, _⟩ := hpayR d hd
        have harith : idx + 1 + j = idx + (j + 1) := by omega
        exact ⟨j, tl, by rw [hp, harith]⟩
    · show (leavesZero g' && leavesZero rest') = true
      rw [hlzG, hlzR]
      rfl
  | case8 fs base idx ns m rest hcs t1 hfn NS t a g' e hgsub ih =>
    intro f' fs' h
    rw [regZero.eq_def] at h
    simp only [if_neg hcs, hfn, hgsub] at h
    injection h with h1 h2
    cases h2
  | case9 fs base idx ns m rest hcs t1 hfn NS t a g' fs1 hgsub rest' res hsub ihg ihr =>
    intro f' fs' h
    rw [regZero.eq_def] at h
    simp only [if_neg hcs, hfn, hgsub, hsub] at h
    injection h with h1 h2
    subst h1
    subst h2
    obtain ⟨newG, hfsG, hprojG, hpayG, hpwG, hlzG⟩ := ihg g' fs1 hgsub
    obtain ⟨newR, hfsR, hprojR, hpayR, hpwR, hlzR⟩ := ihr rest' fs' hsub
    have hlift := payload_lift m (FVal.ptrRec t a) rest
      (.fcons m (.ptrRec g' false) rest') g' t
      base idx newG (by simpa using hcs) (by simp [hfn])
      (fun j tl => rfl) (fun j tl hl => by
        rw [ptrsLive_cons2]
        show ((!false) && ptrsLive g' (j :: tl)) = true
        rw [hl]
        rfl) hpayG
    refine ⟨newG ++ newR, ?_, ?_, ?_, ?_, ?_⟩
    · rw [hfsR, hfsG]
      simp
    · rw [List.map_append, hprojG, hprojR, collectDescsZ_fcons,
        if_pos (show m.canSet = true by simpa using hcs), hfn]
    · intro d hd
      rw [List.mem_append] at hd
      rcases hd with hd | hd
      · exact hlift d hd
      · exact payload_shift m (FVal.ptrRec t a) (FVal.ptrRec g' false) rest rest'
          base idx newR hpayR d hd
    · refine pairwise_paths_append newG newR base idx ?_ ?_ hpwG hpwR
      · intro d hd
        obtain ⟨j2, tl2, hp2, _⟩ := hpayG d hd
        refine ⟨0, j2 :: tl2, ?_, rfl⟩
        rw [hp2, List.append_assoc]
        simp
      · intro d hd
        obtain ⟨j, tl, hp, _, _, _, _⟩ := hpayR d hd
        have harith : idx + 1 + j = idx + (j + 1) := by omega
        exact ⟨j, tl, by rw [hp, harith]⟩
    · show (leavesZero g' && leavesZero rest') = true
      rw [hlzG, hlzR]
      rfl
  | case10 fs base idx ns m rest hcs t hfn tn =>
    intro f' fs' h
    rw [regZero.eq_def] at h
    simp only [if_neg hcs, hfn] at h
    injection h with h1 h2
    cases h2
  | case11 fs base idx ns m rest hcs t hfn =>
    intro f' fs' h
    rw [regZero.eq_def] at h
    simp only [if_neg hcs, hfn] at h
    injection h with h1 h2
    cases h2
  | case12 fs base idx ns m rest hcs t hfn m2 v2 r2 =>
    intro f' fs' h
    rw [regZero.eq_def] at h
    simp only [if_neg hcs, hfn] at h
    injection h with h1 h2
    cases h2
  | case13 fs base idx ns other hx1 hx2 =>
    intro f' fs' h
    rw [regZero.eq_def] at h
    cases hother : other with
    | fnil => exact absurd hother hx1
    | fcons m v r => exact absurd hother (hx2 m v r)
    | leaf u => subst hother; dsimp only at h; injection h with h1 h2; cases h2
    | sub g => subst hother; dsimp only at h; injection h with h1 h2; cases h2
    | ptrRec g b => subst hother; dsimp only at h; injection h with h1 h2; cases h2
    | unsupported t => subst hother; dsimp only at h; injection h with h1 h2; cases h2

theorem collectDescs_fcons (m : FieldMeta) (v r : FVal) (ns : String) :
    collectDescs (.fcons m v r) ns =
      (if m.canSet then
        match flagNameOf m with
        | none => []
        | some nm =>
          let newNS := if m.anon then ns else joinNS ns nm
          match v with
          | .leaf u => [(newNS, kindOf u, usageFor (kindOf u) (descOf m), u)]
          | .sub g => collectDescs g newNS
          | .ptrRec t true => collectDescsZ t newNS
          | .ptrRec t false => collectDescs t newNS
          | _ => []
      else []) ++ collectDescs r ns := by
  rw [collectDescs.eq_def]

/-- What a successful schema walk guarantees: the flag set grows by exactly
the record's descriptors; every new flag's path addresses, inside the walked
record, a live leaf holding the flag's default (of the flag's kind) through a
settable, non-excluded field; distinct flags have distinct paths; and every
settable, non-excluded nil pointer-to-struct field now holds a freshly
allocated all-zero record. -/
theorem regFields_ok_spec (fs : FlagSet) (f : FVal) (base : List Nat) (idx : Nat)
    (ns : String) :
    ∀ f' fs', regFields fs f base idx ns = (f', Except.ok fs') →
    ∃ new, fs' = fs ++ new
      ∧ new.map projFS = collectDescs f ns
      ∧ (∀ d ∈ new, ∃ j tl, d.fpath = base ++ ((idx + j) :: tl)
          ∧ getF f' (j :: tl) = some (.leaf d.defv)
          ∧ ptrsLive f' (j :: tl) = true
          ∧ d.kind = kindOf d.defv
          ∧ ∃ mv, fgetIdx f j = some mv ∧ mv.1.canSet = true ∧ flagNameOf mv.1 ≠ none)
      ∧ new.Pairwise (fun a b => a.fpath ≠ b.fpath)
      ∧ (∀ j m2 t2, fgetIdx f j = some (m2, .ptrRec t2 true) → m2.canSet = true →
          flagNameOf m2 ≠ none →
          ∃ t', fgetIdx f' j = some (m2, .ptrRec t' false) ∧ leavesZero t' = true) := by
  induction fs, f, base, idx, ns using regFields.induct with
  | case1 fs base idx ns =>
    intro f' fs' h
    rw [regFields.eq_def] at h
    dsimp only at h
    injection h with h1 h2
    injection h2 with h2
    subst h1
    subst h2
    refine ⟨[], by simp, rfl, by simp, by simp, ?_⟩
    intro j m2 t2 hj
    simp [fgetIdx] at hj
  | case2 fs base idx ns m v rest hcs rest' res hsub ih =>
    intro f' fs' h
    rw [regFields.eq_def] at h
    simp only [hcs, if_true, hsub] at h
    injection h with h1 h2
    subst h1
    subst h2
    obtain ⟨new, hfs, hproj, hpay, hpw, hal⟩ := ih rest' fs' hsub
    refine ⟨new, hfs, ?_, payload_shift m v v rest rest' base idx new hpay, hpw, ?_⟩
    · rw [collectDescs_fcons, if_neg (by simp [hcs])]
      simpa using hproj
    · intro j m2 t2 hj hcs2 hfn2
      cases j with
      | zero =>
        simp only [fgetIdx, Option.some_inj] at hj
        injection hj with hm hv
        subst hm
        exact absurd hcs2 (by simp [hcs])
      | succ n =>
        simp only [fgetIdx] at hj ⊢
        exact hal n m2 t2 hj hcs2 hfn2
  | case3 fs base idx ns m v rest hcs hfn rest' res hsub ih =>
    intro f' fs' h
    rw [regFields.eq_def] at h
    simp only [if_neg hcs, hfn, hsub] at h
    injection h with h1 h2
    subst h1
    subst h2
    obtain ⟨new, hfs, hproj, hpay, hpw, hal⟩ := ih rest' fs' hsub
    refine ⟨new, hfs, ?_, payload_shift m v v rest rest' base idx new hpay, hpw, ?_⟩
    · by_cases hcs2 : m.canSet = true
      · rw [collectDescs_fcons, if_pos hcs2, hfn]
        simpa using hproj
      · rw [collectDescs_fcons, if_neg hcs2]
        simpa using hproj
    · intro j m2 t2 hj hcs2 hfn2
      cases j with
      | zero =>
        simp only [fgetIdx, Option.some_inj] at hj
        injection hj with hm hv
        subst hm
        exact absurd hfn (by simpa using hfn2)
      | succ n =>
        simp only [fgetIdx] at hj ⊢
        exact hal n m2 t2 hj hcs2 hfn2
  | case4 fs base idx ns m rest hcs t hfn NS u e haf =>
    intro f' fs' h
    rw [regFields.eq_def] at h
    simp only [if_neg hcs, hfn, haf] at h
    injection h with h1 h2
    cases h2
  | case5 fs base idx ns m rest hcs t hfn NS u fs1 haf rest' res hsub ih =>
    intro f' fs' h
    rw [regFields.eq_def] at h
    simp only [if_neg hcs, hfn, haf, hsub] at h
    injection h with h1 h2
    subst h1
    subst h2
    obtain ⟨hnoflag, hfs1⟩ := addFlag_ok _ _ _ _ _ _ _ haf
    obtain ⟨newR, hfsR, hprojR, hpayR, hpwR, halR⟩ := ih rest' fs' hsub
    refine ⟨⟨NS, kindOf u, base ++ [idx], usageFor (kindOf u) (descOf m), u⟩ :: newR,
      ?_, ?_, ?_, ?_, ?_⟩
    · rw [hfsR, hfs1]
      simp
    · rw [List.map_cons, hprojR, collectDescs_fcons,
        if_pos (show m.canSet = true by simpa using hcs), hfn]
      rfl
    · intro d hd
      rw [List.mem_cons] at hd
      rcases hd with hd | hd
      · subst hd
        refine ⟨0, [], rfl, rfl, rfl, rfl,
          ⟨(m, FVal.leaf u), rfl, by simpa using hcs, by simp [hfn]⟩⟩
      · exact payload_shift m (FVal.leaf u) (FVal.leaf u) rest rest'
          base idx newR hpayR d hd
    · refine pairwise_paths_append
        [⟨NS, kindOf u, base ++ [idx], usageFor (kindOf u) (descOf m), u⟩]
        newR base idx ?_ ?_ ?_ hpwR
      · intro d hd
        rw [List.mem_singleton] at hd
        subst hd
        exact ⟨0, [], rfl, rfl⟩
      · intro d hd
        obtain ⟨j, tl, hp, _, _, _, _⟩ := hpayR d hd
        have harith : idx + 1 + j = idx + (j + 1) := by omega
        exact ⟨j, tl, by rw [hp, harith]⟩
      · simp
    · intro j m2 t2 hj hcs2 hfn2
      cases j with
      | zero => simp [fgetIdx] at hj
      | succ n =>
        simp only [fgetIdx] at hj ⊢
        exact halR n m2 t2 hj hcs2 hfn2
  | case6 fs base idx ns m rest hcs t hfn NS g g' e hgsub ih =>
    intro f' fs' h
    rw [regFields.eq_def] at h
    simp only [if_neg hcs, hfn, hgsub] at h
    injection h with h1 h2
    cases h2
  | case7 fs base idx ns m rest hcs t hfn NS g g' fs1 hgsub rest' res hsub ihg ihr =>
    intro f' fs' h
    rw [regFields.eq_def] at h
    simp only [if_neg hcs, hfn, hgsub, hsub] at h
    injection h with h1 h2
    subst h1
    subst h2
    obtain ⟨newG, hfsG, hprojG, hpayG, hpwG, halG⟩ := ihg g' fs1 hgsub
    obtain ⟨newR, hfsR, hprojR, hpayR, hpwR, halR⟩ := ihr rest' fs' hsub
    have hlift := payload_lift m (FVal.sub g) rest (.fcons m (.sub g') rest') g' g
      base idx newG (by simpa using hcs) (by simp [hfn])
      (fun j tl => rfl) (fun j tl hl => hl) hpayG
    refine ⟨newG ++ newR, ?_, ?_, ?_, ?_, ?_⟩
    · rw [hfsR, hfsG]
      simp
    · rw [List.map_append, hprojG, hprojR, collectDescs_fcons,
        if_pos (show m.canSet = true by simpa using hcs), hfn]
    · intro d hd
      rw [List.mem_append] at hd
      rcases hd with hd | hd
      · exact hlift d hd
      · exact payload_shift m (FVal.sub g) (FVal.sub g') rest rest'
          base idx newR hpayR d hd
    · refine pairwise_paths_append newG newR base idx ?_ ?_ hpwG hpwR
      · intro d hd
        obtain ⟨j2, tl2, hp2, _⟩ := hpayG d hd
        refine ⟨0, j2 :: tl2, ?_, rfl⟩
        rw [hp2, List.append_assoc]
        simp
      · intro d hd
        obtain ⟨j, tl, hp, _, _, _, _⟩ := hpayR d hd
        have harith : idx + 1 + j = idx + (j + 1) := by omega
        exact ⟨j, tl, by rw [hp, harith]⟩
    · intro j m2 t2 hj hcs2 hfn2
      cases j with
      | zero => simp [fgetIdx] at hj
      | succ n =>
        simp only [fgetIdx] at hj ⊢
        exact halR n m2 t2 hj hcs2 hfn2
  | case8 fs base idx ns m rest hcs t1 hfn NS t g' e hgsub =>
    intro f' fs' h
    rw [regFields.eq_def] at h
    simp only [if_neg hcs, hfn, hgsub] at h
    injection h with h1 h2
    cases h2
  | case9 fs base idx ns m rest hcs t1 hfn NS t g' fs1 hgsub rest' res hsub ihr =>
    intro f' fs' h
    rw [regFields.eq_def] at h
    simp only [if_neg hcs, hfn, hgsub, hsub] at h
    injection h with h1 h2
    subst h1
    subst h2
    obtain ⟨newG, hfsG, hprojG, hpayG, hpwG, hlzG⟩ :=
      regZero_ok_spec fs t (base ++ [idx]) 0 _ g' fs1 hgsub
    obtain ⟨newR, hfsR, hprojR, hpayR, hpwR, halR⟩ := ihr rest' fs' hsub
    have hlift := payload_lift m (FVal.ptrRec t true) rest
      (.fcons m (.ptrRec g' false) rest') g' t
      base idx newG (by simpa using hcs) (by simp [hfn])
      (fun j tl => rfl) (fun j tl hl => by
        rw [ptrsLive_cons2]
        show ((!false) && ptrsLive g' (j :: tl)) = true
        rw [hl]
        rfl) hpayG
    refine ⟨newG ++ newR, ?_, ?_, ?_, ?_, ?_⟩
    · rw [hfsR, hfsG]
      simp
    · rw [List.map_append, hprojG, hprojR, collectDescs_fcons,
        if_pos (show m.canSet = true by simpa using hcs), hfn]
    · intro d hd
      rw [List.mem_append] at hd
      rcases hd with hd | hd
      · exact hlift d hd
      · exact payload_shift m (FVal.ptrRec t true) (FVal.ptrRec g' false) rest rest'
          base idx newR hpayR d hd
    · refine pairwise_paths_append newG newR base idx ?_ ?_ hpwG hpwR
      · intro d hd
        obtain ⟨j2, tl2, hp2, _⟩ := hpayG d hd
        refine ⟨0, j2 :: tl2, ?_, rfl⟩
        rw [hp2, List.append_assoc]
        simp
      · intro d hd
        obtain ⟨j, tl, hp, _, _, _, _⟩ := hpayR d hd
        have harith : idx + 1 + j = idx + (j + 1) := by omega
        exact ⟨j, tl, by rw [hp, harith]⟩
    · intro j m2 t2 hj hcs2 hfn2
      cases j with
      | zero =>
        simp only [fgetIdx, Option.some_inj] at hj
        injection hj with hm hv
        subst hm
        injection hv with hv1 hv2
        subst hv1
        exact ⟨g', rfl, hlzG⟩
      | succ n =>
        simp only [fgetIdx] at hj ⊢
        exact halR n m2 t2 hj hcs2 hfn2
  | case10 fs base idx ns m rest hcs t1 hfn NS t g' e hgsub ih =>
    intro f' fs' h
    rw [regFields.eq_def] at h
    simp only [if_neg hcs, hfn, hgsub] at h
    injection h with h1 h2
    cases h2
  | case11 fs base idx ns m rest hcs t1 hfn NS t g' fs1 hgsub rest' res hsub ihg ihr =>
    intro f' fs' h
    rw [regFields.eq_def] at h
    simp only [if_neg hcs, hfn, hgsub, hsub] at h
    injection h with h1 h2
    subst h1
    subst h2
    obtain ⟨newG, hfsG, hprojG, hpayG, hpwG, halG⟩ := ihg g' fs1 hgsub
    obtain ⟨newR, hfsR, hprojR, hpayR, hpwR, halR⟩ := ihr rest' fs' hsub
    have hlift := payload_lift m (FVal.ptrRec t false) rest
      (.fcons m (.ptrRec g' false) rest') g' t
      base idx newG (by simpa using hcs) (by simp [hfn])
      (fun j tl => rfl) (fun j tl hl => by
        rw [ptrsLive_cons2]
        show ((!false) && ptrsLive g' (j :: tl)) = true
        rw [hl]
        rfl) hpayG
    refine ⟨newG ++ newR, ?_, ?_, ?_, ?_, ?_⟩
    · rw [hfsR, hfsG]
      simp
    · rw [List.map_append, hprojG, hprojR, collectDescs_fcons,
        if_pos (show m.canSet = true by simpa using hcs), hfn]
    · intro d hd
      rw [List.mem_append] at hd
      rcases hd with hd | hd
      · exact hlift d hd
      · exact payload_shift m (FVal.ptrRec t false) (FVal.ptrRec g' false) rest rest'
          base idx newR hpayR d hd
    · refine pairwise_paths_append newG newR base idx ?_ ?_ hpwG hpwR
      · intro d hd
        obtain ⟨j2, tl2, hp2, _⟩ := hpayG d hd
        refine ⟨0, j2 :: tl2, ?_, rfl⟩
        rw [hp2, List.append_assoc]
        simp
      · intro d hd
        obtain ⟨j, tl, hp, _, _, _, _⟩ := hpayR d hd
        have harith : idx + 1 + j = idx + (j + 1) := by omega
        exact ⟨j, tl, by rw [hp, harith]⟩
    · intro j m2 t2 hj hcs2 hfn2
      cases j with
      | zero =>
        simp only [fgetIdx, Option.some_inj] at hj
        injection hj with hm hv
        injection hv with hv1 hv2
        cases hv2
      | succ n =>
        simp only [fgetIdx] at hj ⊢
        exact halR n m2 t2 hj hcs2 hfn2
  | case12 fs base idx ns m rest hcs t hfn tn =>
    intro f' fs' h
    rw [regFields.eq_def] at h
    simp only [if_neg hcs, hfn] at h
    injection h with h1 h2
    cases h2
  | case13 fs base idx ns m rest hcs t hfn =>
    intro f' fs' h
    rw [regFields.eq_def] at h
    simp only [if_neg hcs, hfn] at h
    injection h with h1 h2
    cases h2
  | case14 fs base idx ns m rest hcs t hfn m2 v2 r2 =>
    intro f' fs' h
    rw [regFields.eq_def] at h
    simp only [if_neg hcs, hfn] at h
    injection h with h1 h2
    cases h2
  | case15 fs base idx ns other hx1 hx2 =>
    intro f' fs' h
    rw [regFields.eq_def] at h
    cases hother : other with
    | fnil => exact absurd hother hx1
    | fcons m v r => exact absurd hother (hx2 m v r)
    | leaf u => subst hother; dsimp only at h; injection h with h1 h2; cases h2
    | sub g => subst hother; dsimp only at h; injection h with h1 h2; cases h2
    | ptrRec g b => subst hother; dsimp only at h; injection h with h1 h2; cases h2
    | unsupported t => subst hother; dsimp only at h; injection h with h1 h2; cases h2

/-- addFlag can only fail with the flag-redefinition panic. -/
theorem addFlag_err (fs : FlagSet) (nm : String) (k : FKind) (p : List Nat)
    (desc : String) (dv : Val) (e : RegErr)
    (h : addFlag fs nm k p desc dv = .error e) : e = .dupPanic nm := by
  unfold addFlag at h
  by_cases hh : hasFlag fs nm = true
  · simp only [hh, if_true] at h
    injection h with h1
    exact h1.symm
  · simp [hh] at h

/-- Appending a fresh name keeps the registered names duplicate-free. -/
theorem nodup_addFlag (fs : FlagSet) (nm : String) (k : FKind) (p : List Nat)
    (us : String) (dv : Val)
    (hnd : (fs.map (fun d => d.name)).Nodup) (hh : hasFlag fs nm = false) :
    ((fs ++ [(⟨nm, k, p, us, dv⟩ : FlagSpec)]).map (fun d => d.name)).Nodup := by
  have hno : ∀ d ∈ fs, d.name ≠ nm := by
    intro d hd he
    have : hasFlag fs nm = true := by
      simp only [hasFlag, List.any_eq_true, decide_eq_true_eq]
      exact ⟨d, hd, he⟩
    rw [hh] at this
    cases this
  rw [List.map_append, List.nodup_append]
  refine ⟨hnd, List.nodup_singleton _, ?_⟩
  intro a ha hb
  simp only [List.map_cons, List.map_nil, List.mem_singleton] at hb
  subst hb
  simp only [List.mem_map] at ha
  obtain ⟨d, hd, hdn⟩ := ha
  exact hno d hd hdn

/-- A found flag is a registered flag of that name. -/
theorem findFlag_mem (fs : FlagSet) (nm : String) (d : FlagSpec)
    (h : findFlag fs nm = some d) : d ∈ fs ∧ d.name = nm := by
  unfold findFlag at h
  refine ⟨List.mem_of_find?_eq_some h, ?_⟩
  have := List.find?_some h
  simpa using this

/-- With duplicate-free names, looking a flag up by its own name finds it. -/
theorem findFlag_nodup_eq (fs : FlagSet) (d : FlagSpec)
    (hnd : (fs.map (fun x => x.name)).Nodup) (hd : d ∈ fs) :
    findFlag fs d.name = some d := by
  induction fs with
  | nil => cases hd
  | cons e rest ih =>
    rw [List.mem_cons] at hd
    rw [List.map_cons, List.nodup_cons] at hnd
    obtain ⟨hne, hndr⟩ := hnd
    rcases hd with hd | hd
    · subst hd
      unfold findFlag
      exact List.find?_cons_of_pos _ (by simp)
    · have hdn : d.name ∈ rest.map (fun x => x.name) :=
        List.mem_map.mpr ⟨d, hd, rfl⟩
      have hene : ¬ (e.name = d.name) := fun he => hne (he ▸ hdn)
      unfold findFlag
      rw [List.find?_cons_of_neg _ (by simpa using hene)]
      exact ih hndr hd

/-- The value a replace-style Set stores has the flag's kind. -/
theorem parseKindVal_kind (k : FKind) (raw : String) (v : Val)
    (h : parseKindVal k raw = some v) : kindOf v = k := by
  cases k with
  | kbool =>
    simp only [parseKindVal, Option.map_eq_some'] at h
    obtain ⟨b, _, hb⟩ := h
    subst hb
    rfl
  | kint =>
    simp only [parseKindVal, Option.map_eq_some'] at h
    obtain ⟨n, _, hn⟩ := h
    subst hn
    rfl
  | kstr =>
    injection h with h1
    subst h1
    rfl
  | kstrs =>
    injection h with h1
    subst h1
    rfl
  | kints => cases h

/-- For the replace-style kinds a flag's Set either stores the parsed value at
the flag's address or fails leaving the record untouched. -/
theorem setFlagVal_spec (r : FVal) (d : FlagSpec) (raw : String)
    (hk : d.kind ≠ .kints) :
    setFlagVal r d raw = match parseKindVal d.kind raw with
      | some v => (setF r d.fpath (.leaf v), true)
      | none => (r, false) := by
  cases hkd : d.kind with
  | kints => exact absurd hkd hk
  | kbool =>
    simp only [setFlagVal, parseKindVal, hkd]
    cases goParseBool raw <;> rfl
  | kint =>
    simp only [setFlagVal, parseKindVal, hkd]
    cases goParseInt0 raw <;> rfl
  | kstr => simp only [setFlagVal, parseKindVal, hkd]
  | kstrs =>
    simp only [setFlagVal, parseKindVal, hkd, StringsSet]

/-- Whatever the kind and outcome, a Set call either leaves the record alone
or overwrites the flag's leaf with a value of that leaf's kind. -/
theorem setFlagVal_shape (r : FVal) (d : FlagSpec) (raw : String) (u : Val)
    (hg : getF r d.fpath = some (.leaf u)) (hk : d.kind = kindOf u) :
    ∀ r1 ok, setFlagVal r d raw = (r1, ok) →
      r1 = r ∨ ∃ v, kindOf v = kindOf u ∧ r1 = setF r d.fpath (.leaf v) := by
  intro r1 ok h
  cases hkd : d.kind with
  | kbool =>
    simp only [setFlagVal, hkd] at h
    cases hb : goParseBool raw with
    | none =>
      rw [hb] at h
      injection h with h1 _
      exact Or.inl h1.symm
    | some b =>
      rw [hb] at h
      injection h with h1 _
      refine Or.inr ⟨.vbool b, ?_, h1.symm⟩
      rw [← hk, hkd]
      rfl
  | kint =>
    simp only [setFlagVal, hkd] at h
    cases hb : goParseInt0 raw with
    | none =>
      rw [hb] at h
      injection h with h1 _
      exact Or.inl h1.symm
    | some n =>
      rw [hb] at h
      injection h with h1 _
      refine Or.inr ⟨.vint n, ?_, h1.symm⟩
      rw [← hk, hkd]
      rfl
  | kstr =>
    simp only [setFlagVal, hkd] at h
    injection h with h1 _
    refine Or.inr ⟨.vstr raw, ?_, h1.symm⟩
    rw [← hk, hkd]
    rfl
  | kstrs =>
    simp only [setFlagVal, hkd, StringsSet] at h
    injection h with h1 _
    refine Or.inr ⟨.vstrs (goSplit raw (Char.ofNat 44)), ?_, h1.symm⟩
    rw [← hk, hkd]
    rfl
  | kints =>
    rw [hkd] at hk
    simp only [setFlagVal, hkd, hg] at h
    cases u with
    | vints cur =>
      dsimp only at h
      injection h with h1 _
      refine Or.inr ⟨.vints (IntsSet cur raw).1, ?_, h1.symm⟩
      rw [← hk]
      rfl
    | vbool b => cases hk
    | vint n => cases hk
    | vstr s => cases hk
    | vstrs l => cases hk

/-- A leaf overwrite of matching kind preserves the registered-address
invariant. -/
theorem leafInv_setF (fs : FlagSet) (r : FVal) (p : List Nat) (u v : Val)
    (hg : getF r p = some (.leaf u)) (hk : kindOf v = kindOf u)
    (hinv : leafInv fs r) : leafInv fs (setF r p (.leaf v)) := by
  intro d hd
  obtain ⟨u2, hg2, hl2, hk2⟩ := hinv d hd
  by_cases hpq : p = d.fpath
  · subst hpq
    rw [hg] at hg2
    injection hg2 with h1
    injection h1 with h1
    refine ⟨v, getF_setF_self d.fpath r u _ hg,
      ptrsLive_setF d.fpath d.fpath r u _ hg hl2, ?_⟩
    rw [hk2, ← h1, ← hk]
  · exact ⟨u2, getF_setF_ne p d.fpath r u u2 _ hg hg2 hpq,
      ptrsLive_setF p d.fpath r u _ hg hl2, hk2⟩

/-- A Set call of any registered flag preserves the registered-address
invariant, whether or not it succeeds. -/
theorem setFlagVal_inv (fs : FlagSet) (r : FVal) (d : FlagSpec) (raw : String)
    (hd : d ∈ fs) (hinv : leafInv fs r) :
    ∀ r1 ok, setFlagVal r d raw = (r1, ok) → leafInv fs r1 := by
  intro r1 ok h
  obtain ⟨u, hg, hl, hk⟩ := hinv d hd
  rcases setFlagVal_shape r d raw u hg hk r1 ok h with h1 | ⟨v, hkv, h1⟩
  · subst h1
    exact hinv
  · subst h1
    exact leafInv_setF fs r d.fpath u v hg hkv hinv

/-- Leaf kinds are skeleton facts: records of equal skeleton agree on them. -/
theorem kindOf_stable_of_skel (r r2 : FVal) (q : List Nat) (u u2 : Val)
    (hs : skel r2 = skel r) (h1 : getF r q = some (.leaf u))
    (h2 : getF r2 q = some (.leaf u2)) : kindOf u2 = kindOf u := by
  have e1 : getF (skel r) q = some (.leaf (kindDefault (kindOf u))) := by
    rw [getF_skel, h1]
    rfl
  have e2 : getF (skel r2) q = some (.leaf (kindDefault (kindOf u2))) := by
    rw [getF_skel, h2]
    rfl
  rw [hs, e1] at e2
  injection e2 with e3
  injection e3 with e3
  have e4 := congrArg kindOf e3
  rw [kindOf_kindDefault, kindOf_kindDefault] at e4
  exact e4.symm

/-- A successful decode preserves the registered-address invariant. -/
theorem leafInv_decodeDoc (fs : FlagSet) (es : List TomlEntry) (r r2 : FVal)
    (h : decodeDoc r es = (r2, none)) (hinv : leafInv fs r) : leafInv fs r2 := by
  intro d hd
  obtain ⟨u, hg, hl, hk⟩ := hinv d hd
  obtain ⟨hg2, hl2⟩ := decodeDoc_getF es r r2 h d.fpath u hg hl
  refine ⟨_, hg2, hl2, ?_⟩
  have hs := skel_decodeDoc es r r2 none h
  have hkq := kindOf_stable_of_skel r r2 d.fpath u _ hs hg hg2
  rw [hk, ← hkq]

/-- Distinct registered flags have distinct stored addresses. -/
theorem fpath_ne_of_mem (fs : FlagSet)
    (hpw : fs.Pairwise (fun a b => a.fpath ≠ b.fpath))
    (a b : FlagSpec) (ha : a ∈ fs) (hb : b ∈ fs) (hab : a ≠ b) :
    a.fpath ≠ b.fpath := by
  have hsym : Symmetric (fun a b : FlagSpec => a.fpath ≠ b.fpath) := by
    intro x y h e
    exact h e.symm
  exact (hpw.forall hsym) ha hb hab

/-- With duplicate-free names, two registered flags of one name coincide. -/
theorem name_inj_of_nodup (fs : FlagSet)
    (hnd : (fs.map (fun d => d.name)).Nodup) (a b : FlagSpec)
    (ha : a ∈ fs) (hb : b ∈ fs) (he : a.name = b.name) : a = b :=
  List.inj_on_of_nodup_map hnd ha hb he

/-- A successful schema walk of a zero record keeps names duplicate-free. -/
theorem regZero_nodup (fs : FlagSet) (f : FVal) (base : List Nat) (idx : Nat)
    (ns : String) :
    ∀ f' fs', regZero fs f base idx ns = (f', Except.ok fs') →
    (fs.map (fun d => d.name)).Nodup → (fs'.map (fun d => d.name)).Nodup := by
  induction fs, f, base, idx, ns using regZero.induct with
  | case1 fs base idx ns =>
    intro f' fs' h hnd
    rw [regZero.eq_def] at h
    dsimp only at h
    injection h with h1 h2
    injection h2 with h2
    subst h2
    exact hnd
  | case2 fs base idx ns m v rest hcs rest' res hsub ih =>
    intro f' fs' h hnd
    rw [regZero.eq_def] at h
    simp only [hcs, if_true, hsub] at h
    injection h with h1 h2
    subst h2
    exact ih rest' fs' hsub hnd
  | case3 fs base idx ns m v rest hcs hfn rest' res hsub ih =>
    intro f' fs' h hnd
    rw [regZero.eq_def] at h
    simp only [if_neg hcs, hfn, hsub] at h
    injection h with h1 h2
    subst h2
    exact ih rest' fs' hsub hnd
  | case4 fs base idx ns m rest hcs t hfn NS u e haf =>
    intro f' fs' h hnd
    rw [regZero.eq_def] at h
    simp only [if_neg hcs, hfn, haf] at h
    injection h with h1 h2
    cases h2
  | case5 fs base idx ns m rest hcs t hfn NS u fs1 haf rest' res hsub ih =>
    intro f' fs' h hnd
    rw [regZero.eq_def] at h
    simp only [if_neg hcs, hfn, haf, hsub] at h
    injection h with h1 h2
    subst h2
    obtain ⟨hnoflag, hfs1⟩ := addFlag_ok _ _ _ _ _ _ _ haf
    have hnd1 : (fs1.map (fun d => d.name)).Nodup := by
      rw [hfs1]
      exact nodup_addFlag _ _ _ _ _ _ hnd hnoflag
    exact ih rest' fs' hsub hnd1
  | case6 fs base idx ns m rest hcs t hfn NS g g' e hgsub ih =>
    intro f' fs' h hnd
    rw [regZero.eq_def] at h
    simp only [if_neg hcs, hfn, hgsub] at h
    injection h with h1 h2
    cases h2
  | case7 fs base idx ns m rest hcs t hfn NS g g' fs1 hgsub rest' res hsub ihg ihr =>
    intro f' fs' h hnd
    rw [regZero.eq_def] at h
    simp only [if_neg hcs, hfn, hgsub, hsub] at h
    injection h with h1 h2
    subst h2
    exact ihr rest' fs' hsub (ihg g' fs1 hgsub hnd)
  | case8 fs base idx ns m rest hcs t1 hfn NS t a g' e hgsub ih =>
    intro f' fs' h hnd
    rw [regZero.eq_def] at h
    simp only [if_neg hcs, hfn, hgsub] at h
    injection h with h1 h2
    cases h2
  | case9 fs base idx ns m rest hcs t1 hfn NS t a g' fs1 hgsub rest' res hsub ihg ihr =>
    intro f' fs' h hnd
    rw [regZero.eq_def] at h
    simp only [if_neg hcs, hfn, hgsub, hsub] at h
    injection h with h1 h2
    subst h2
    exact ihr rest' fs' hsub (ihg g' fs1 hgsub hnd)
  | case10 fs base idx ns m rest hcs t hfn tn =>
    intro f' fs' h hnd
    rw [regZero.eq_def] at h
    simp only [if_neg hcs, hfn] at h
    injection h with h1 h2
    cases h2
  | case11 fs base idx ns m rest hcs t hfn =>
    intro f' fs' h hnd
    rw [regZero.eq_def] at h
    simp only [if_neg hcs, hfn] at h
    injection h with h1 h2
    cases h2
  | case12 fs base idx ns m rest hcs t hfn m2 v2 r2 =>
    intro f' fs' h hnd
    rw [regZero.eq_def] at h
    simp only [if_neg hcs, hfn] at h
    injection h with h1 h2
    cases h2
  | case13 fs base idx ns other hx1 hx2 =>
    intro f' fs' h hnd
    rw [regZero.eq_def] at h
    cases hother : other with
    | fnil => exact absurd hother hx1
    | fcons m v r => exact absurd hother (hx2 m v r)
    | leaf u => subst hother; dsimp only at h; injection h with h1 h2; cases h2
    | sub g => subst hother; dsimp only at h; injection h with h1 h2; cases h2
    | ptrRec g b => subst hother; dsimp only at h; injection h with h1 h2; cases h2
    | unsupported t => subst hother; dsimp only at h; injection h with h1 h2; cases h2

/-- A successful schema walk keeps the registered names duplicate-free. -/
theorem regFields_nodup (fs : FlagSet) (f : FVal) (base : List Nat) (idx : Nat)
    (ns : String) :
    ∀ f' fs', regFields fs f base idx ns = (f', Except.ok fs') →
    (fs.map (fun d => d.name)).Nodup → (fs'.map (fun d => d.name)).Nodup := by
  induction fs, f, base, idx, ns using regFields.induct with
  | case1 fs base idx ns =>
    intro f' fs' h hnd
    rw [regFields.eq_def] at h
    dsimp only at h
    injection h with h1 h2
    injection h2 with h2
    subst h2
    exact hnd
  | case2 fs base idx ns m v rest hcs rest' res hsub ih =>
    intro f' fs' h hnd
    rw [regFields.eq_def] at h
    simp only [hcs, if_true, hsub] at h
    injection h with h1 h2
    subst h2
    exact ih rest' fs' hsub hnd
  | case3 fs base idx ns m v rest hcs hfn rest' res hsub ih =>
    intro f' fs' h hnd
    rw [regFields.eq_def] at h
    simp only [if_neg hcs, hfn, hsub] at h
    injection h with h1 h2
    subst h2
    exact ih rest' fs' hsub hnd
  | case4 fs base idx ns m rest hcs t hfn NS u e haf =>
    intro f' fs' h hnd
    rw [regFields.eq_def] at h
    simp only [if_neg hcs, hfn, haf] at h
    injection h with h1 h2
    cases h2
  | case5 fs base idx ns m rest hcs t hfn NS u fs1 haf rest' res hsub ih =>
    intro f' fs' h hnd
    rw [regFields.eq_def] at h
    simp only [if_neg hcs, hfn, haf, hsub] at h
    injection h with h1 h2
    subst h2
    obtain ⟨hnoflag, hfs1⟩ := addFlag_ok _ _ _ _ _ _ _ haf
    have hnd1 : (fs1.map (fun d => d.name)).Nodup := by
      rw [hfs1]
      exact nodup_addFlag _ _ _ _ _ _ hnd hnoflag
    exact ih rest' fs' hsub hnd1
  | case6 fs base idx ns m rest hcs t hfn NS g g' e hgsub ih =>
    intro f' fs' h hnd
    rw [regFields.eq_def] at h
    simp only [if_neg hcs, hfn, hgsub] at h
    injection h with h1 h2
    cases h2
  | case7 fs base idx ns m rest hcs t hfn NS g g' fs1 hgsub rest' res hsub ihg ihr =>
    intro f' fs' h hnd
    rw [regFields.eq_def] at h
    simp only [if_neg hcs, hfn, hgsub, hsub] at h
    injection h with h1 h2
    subst h2
    exact ihr rest' fs' hsub (ihg g' fs1 hgsub hnd)
  | case8 fs base idx ns m rest hcs t1 hfn NS t g' e hgsub =>
    intro f' fs' h hnd
    rw [regFields.eq_def] at h
    simp only [if_neg hcs, hfn, hgsub] at h
    injection h with h1 h2
    cases h2
  | case9 fs base idx ns m rest hcs t1 hfn NS t g' fs1 hgsub rest' res hsub ihr =>
    intro f' fs' h hnd
    rw [regFields.eq_def] at h
    simp only [if_neg hcs, hfn, hgsub, hsub] at h
    injection h with h1 h2
    subst h2
    exact ihr rest' fs' hsub
      (regZero_nodup fs t (base ++ [idx]) 0 NS g' fs1 hgsub hnd)
  | case10 fs base idx ns m rest hcs t1 hfn NS t g' e hgsub ih =>
    intro f' fs' h hnd
    rw [regFields.eq_def] at h
    simp only [if_neg hcs, hfn, hgsub] at h
    injection h with h1 h2
    cases h2
  | case11 fs base idx ns m rest hcs t1 hfn NS t g' fs1 hgsub rest' res hsub ihg ihr =>
    intro f' fs' h hnd
    rw [regFields.eq_def] at h
    simp only [if_neg hcs, hfn, hgsub, hsub] at h
    injection h with h1 h2
    subst h2
    exact ihr rest' fs' hsub (ihg g' fs1 hgsub hnd)
  | case12 fs base idx ns m rest hcs t hfn tn =>
    intro f' fs' h hnd
    rw [regFields.eq_def] at h
    simp only [if_neg hcs, hfn] at h
    injection h with h1 h2
    cases h2
  | case13 fs base idx ns m rest hcs t hfn =>
    intro f' fs' h hnd
    rw [regFields.eq_def] at h
    simp only [if_neg hcs, hfn] at h
    injection h with h1 h2
    cases h2
  | case14 fs base idx ns m rest hcs t hfn m2 v2 r2 =>
    intro f' fs' h hnd
    rw [regFields.eq_def] at h
    simp only [if_neg hcs, hfn] at h
    injection h with h1 h2
    cases h2
  | case15 fs base idx ns other hx1 hx2 =>
    intro f' fs' h hnd
    rw [regFields.eq_def] at h
    cases hother : other with
    | fnil => exact absurd hother hx1
    | fcons m v r => exact absurd hother (hx2 m v r)
    | leaf u => subst hother; dsimp only at h; injection h with h1 h2; cases h2
    | sub g => subst hother; dsimp only at h; injection h with h1 h2; cases h2
    | ptrRec g b => subst hother; dsimp only at h; injection h with h1 h2; cases h2
    | unsupported t => subst hother; dsimp only at h; injection h with h1 h2; cases h2

theorem supportedF_fcons (m : FieldMeta) (v r : FVal) :
    supportedF (.fcons m v r) =
      ((if m.canSet && (flagNameOf m).isSome then
        match v with
        | .leaf _ => true
        | .sub g => supportedF g
        | .ptrRec t _ => supportedF t
        | _ => false
      else true) && supportedF r) := by
  rw [supportedF.eq_def]

/-- Over a record whose walkable fields are all of handled types, regZero
never returns the unhandled-type error. -/
theorem regZero_no_unhandled (fs : FlagSet) (f : FVal) (base : List Nat)
    (idx : Nat) (ns : String) :
    supportedF f = true →
    ∀ f' tn, regZero fs f base idx ns ≠ (f', .error (.unhandledType tn)) := by
  induction fs, f, base, idx, ns using regZero.induct with
  | case1 fs base idx ns =>
    intro hsup f' tn h
    rw [regZero.eq_def] at h
    dsimp only at h
    injection h with h1 h2
    cases h2
  | case2 fs base idx ns m v rest hcs rest' res hsub ih =>
    intro hsup f' tn h
    rw [supportedF_fcons, Bool.and_eq_true] at hsup
    rw [regZero.eq_def] at h
    simp only [hcs, if_true, hsub] at h
    injection h with h1 h2
    rw [h2] at hsub
    exact ih hsup.2 rest' tn hsub
  | case3 fs base idx ns m v rest hcs hfn rest' res hsub ih =>
    intro hsup f' tn h
    rw [supportedF_fcons, Bool.and_eq_true] at hsup
    rw [regZero.eq_def] at h
    simp only [if_neg hcs, hfn, hsub] at h
    injection h with h1 h2
    rw [h2] at hsub
    exact ih hsup.2 rest' tn hsub
  | case4 fs base idx ns m rest hcs t hfn NS u e haf =>
    intro hsup f' tn h
    rw [regZero.eq_def] at h
    simp only [if_neg hcs, hfn, haf] at h
    injection h with h1 h2
    injection h2 with h2
    rw [addFlag_err _ _ _ _ _ _ _ haf] at h2
    exact absurd h2 (by simp)
  | case5 fs base idx ns m rest hcs t hfn NS u fs1 haf rest' res hsub ih =>
    intro hsup f' tn h
    simp only [supportedF, Bool.and_eq_true] at hsup
    rw [regZero.eq_def] at h
    simp only [if_neg hcs, hfn, haf, hsub] at h
    injection h with h1 h2
    rw [h2] at hsub
    exact ih hsup.2 rest' tn hsub
  | case6 fs base idx ns m rest hcs t hfn NS g g' e hgsub ih =>
    intro hsup f' tn h
    have hcst : m.canSet = true := by simpa using hcs
    simp only [supportedF, hcst, hfn, Option.isSome_some, Bool.true_and, if_true,
      Bool.and_eq_true] at hsup
    rw [regZero.eq_def] at h
    simp only [if_neg hcs, hfn, hgsub] at h
    injection h with h1 h2
    injection h2 with h2
    rw [h2] at hgsub
    exact ih hsup.1 g' tn hgsub
  | case7 fs base idx ns m rest hcs t hfn NS g g' fs1 hgsub rest' res hsub ihg ihr =>
    intro hsup f' tn h
    have hcst : m.canSet = true := by simpa using hcs
    simp only [supportedF, hcst, hfn, Option.isSome_some, Bool.true_and, if_true,
      Bool.and_eq_true] at hsup
    rw [regZero.eq_def] at h
    simp only [if_neg hcs, hfn, hgsub, hsub] at h
    injection h with h1 h2
    rw [h2] at hsub
    exact ihr hsup.2 rest' tn hsub
  | case8 fs base idx ns m rest hcs t1 hfn NS t a g' e hgsub ih =>
    intro hsup f' tn h
    have hcst : m.canSet = true := by simpa using hcs
    simp only [supportedF, hcst, hfn, Option.isSome_some, Bool.true_and, if_true,
      Bool.and_eq_true] at hsup
    rw [regZero.eq_def] at h
    simp only [if_neg hcs, hfn, hgsub] at h
    injection h with h1 h2
    injection h2 with h2
    rw [h2] at hgsub
    exact ih hsup.1 g' tn hgsub
  | case9 fs base idx ns m rest hcs t1 hfn NS t a g' fs1 hgsub rest' res hsub ihg ihr =>
    intro hsup f' tn h
    have hcst : m.canSet = true := by simpa using hcs
    simp only [supportedF, hcst, hfn, Option.isSome_some, Bool.true_and, if_true,
      Bool.and_eq_true] at hsup
    rw [regZero.eq_def] at h
    simp only [if_neg hcs, hfn, hgsub, hsub] at h
    injection h with h1 h2
    rw [h2] at hsub
    exact ihr hsup.2 rest' tn hsub
  | case10 fs base idx ns m rest hcs t hfn tn =>
    intro hsup f' tn2 h
    have hcst : m.canSet = true := by simpa using hcs
    simp [supportedF, hcst, hfn] at hsup
  | case11 fs base idx ns m rest hcs t hfn =>
    intro hsup f' tn h
    have hcst : m.canSet = true := by simpa using hcs
    simp [supportedF, hcst, hfn] at hsup
  | case12 fs base idx ns m rest hcs t hfn m2 v2 r2 =>
    intro hsup f' tn h
    have hcst : m.canSet = true := by simpa using hcs
    simp [supportedF, hcst, hfn] at hsup
  | case13 fs base idx ns other hx1 hx2 =>
    intro hsup f' tn h
    cases hother : other with
    | fnil => exact absurd hother hx1
    | fcons m v r => exact absurd hother (hx2 m v r)
    | leaf u => subst hother; simp [supportedF] at hsup
    | sub g => subst hother; simp [supportedF] at hsup
    | ptrRec g b => subst hother; simp [supportedF] at hsup
    | unsupported t => subst hother; simp [supportedF] at hsup

/-- Over a record whose walkable fields are all of handled types,
registerFlags never returns the unhandled-type error. -/
theorem regFields_no_unhandled (fs : FlagSet) (f : FVal) (base : List Nat)
    (idx : Nat) (ns : String) :
    supportedF f = true →
    ∀ f' tn, regFields fs f base idx ns ≠ (f', .error (.unhandledType tn)) := by
  induction fs, f, base, idx, ns using regFields.induct with
  | case1 fs base idx ns =>
    intro hsup f' tn h
    rw [regFields.eq_def] at h
    dsimp only at h
    injection h with h1 h2
    cases h2
  | case2 fs base idx ns m v rest hcs rest' res hsub ih =>
    intro hsup f' tn h
    rw [supportedF_fcons, Bool.and_eq_true] at hsup
    rw [regFields.eq_def] at h
    simp only [hcs, if_true, hsub] at h
    injection h with h1 h2
    rw [h2] at hsub
    exact ih hsup.2 rest' tn hsub
  | case3 fs base idx ns m v rest hcs hfn rest' res hsub ih =>
    intro hsup f' tn h
    rw [supportedF_fcons, Bool.and_eq_true] at hsup
    rw [regFields.eq_def] at h
    simp only [if_neg hcs, hfn, hsub] at h
    injection h with h1 h2
    rw [h2] at hsub
    exact ih hsup.2 rest' tn hsub
  | case4 fs base idx ns m rest hcs t hfn NS u e haf =>
    intro hsup f' tn h
    rw [regFields.eq_def] at h
    simp only [if_neg hcs, hfn, haf] at h
    injection h with h1 h2
    injection h2 with h2
    rw [addFlag_err _ _ _ _ _ _ _ haf] at h2
    exact absurd h2 (by simp)
  | case5 fs base idx ns m rest hcs t hfn NS u fs1 haf rest' res hsub ih =>
    intro hsup f' tn h
    simp only [supportedF, Bool.and_eq_true] at hsup
    rw [regFields.eq_def] at h
    simp only [if_neg hcs, hfn, haf, hsub] at h
    injection h with h1 h2
    rw [h2] at hsub
    exact ih hsup.2 rest' tn hsub
  | case6 fs base idx ns m rest hcs t hfn NS g g' e hgsub ih =>
    intro hsup f' tn h
    have hcst : m.canSet = true := by simpa using hcs
    simp only [supportedF, hcst, hfn, Option.isSome_some, Bool.true_and, if_true,
      Bool.and_eq_true] at hsup
    rw [regFields.eq_def] at h
    simp only [if_neg hcs, hfn, hgsub] at h
    injection h with h1 h2
    injection h2 with h2
    rw [h2] at hgsub
    exact ih hsup.1 g' tn hgsub
  | case7 fs base idx ns m rest hcs t hfn NS g g' fs1 hgsub rest' res hsub ihg ihr =>
    intro hsup f' tn h
    have hcst : m.canSet = true := by simpa using hcs
    simp only [supportedF, hcst, hfn, Option.isSome_some, Bool.true_and, if_true,
      Bool.and_eq_true] at hsup
    rw [regFields.eq_def] at h
    simp only [if_neg hcs, hfn, hgsub, hsub] at h
    injection h with h1 h2
    rw [h2] at hsub
    exact ihr hsup.2 rest' tn hsub
  | case8 fs base idx ns m rest hcs t1 hfn NS t g' e hgsub =>
    intro hsup f' tn h
    have hcst : m.canSet = true := by simpa using hcs
    simp only [supportedF, hcst, hfn, Option.isSome_some, Bool.true_and, if_true,
      Bool.and_eq_true] at hsup
    rw [regFields.eq_def] at h
    simp only [if_neg hcs, hfn, hgsub] at h
    injection h with h1 h2
    injection h2 with h2
    rw [h2] at hgsub
    exact regZero_no_unhandled fs t (base ++ [idx]) 0 NS hsup.1 g' tn hgsub
  | case9 fs base idx ns m rest hcs t1 hfn NS t g' fs1 hgsub rest' res hsub ihr =>
    intro hsup f' tn h
    have hcst : m.canSet = true := by simpa using hcs
    simp only [supportedF, hcst, hfn, Option.isSome_some, Bool.true_and, if_true,
      Bool.and_eq_true] at hsup
    rw [regFields.eq_def] at h
    simp only [if_neg hcs, hfn, hgsub, hsub] at h
    injection h with h1 h2
    rw [h2] at hsub
    exact ihr hsup.2 rest' tn hsub
  | case10 fs base idx ns m rest hcs t1 hfn NS t g' e hgsub ih =>
    intro hsup f' tn h
    have hcst : m.canSet = true := by simpa using hcs
    simp only [supportedF, hcst, hfn, Option.isSome_some, Bool.true_and, if_true,
      Bool.and_eq_true] at hsup
    rw [regFields.eq_def] at h
    simp only [if_neg hcs, hfn, hgsub] at h
    injection h with h1 h2
    injection h2 with h2
    rw [h2] at hgsub
    exact ih hsup.1 g' tn hgsub
  | case11 fs base idx ns m rest hcs t1 hfn NS t g' fs1 hgsub rest' res hsub ihg ihr =>
    intro hsup f' tn h
    have hcst : m.canSet = true := by simpa using hcs
    simp only [supportedF, hcst, hfn, Option.isSome_some, Bool.true_and, if_true,
      Bool.and_eq_true] at hsup
    rw [regFields.eq_def] at h
    simp only [if_neg hcs, hfn, hgsub, hsub] at h
    injection h with h1 h2
    rw [h2] at hsub
    exact ihr hsup.2 rest' tn hsub
  | case12 fs base idx ns m rest hcs t hfn tn =>
    intro hsup f' tn2 h
    have hcst : m.canSet = true := by simpa using hcs
    simp [supportedF, hcst, hfn] at hsup
  | case13 fs base idx ns m rest hcs t hfn =>
    intro hsup f' tn h
    have hcst : m.canSet = true := by simpa using hcs
    simp [supportedF, hcst, hfn] at hsup
  | case14 fs base idx ns m rest hcs t hfn m2 v2 r2 =>
    intro hsup f' tn h
    have hcst : m.canSet = true := by simpa using hcs
    simp [supportedF, hcst, hfn] at hsup
  | case15 fs base idx ns other hx1 hx2 =>
    intro hsup f' tn h
    cases hother : other with
    | fnil => exact absurd hother hx1
    | fcons m v r => exact absurd hother (hx2 m v r)
    | leaf u => subst hother; simp [supportedF] at hsup
    | sub g => subst hother; simp [supportedF] at hsup
    | ptrRec g b => subst hother; simp [supportedF] at hsup
    | unsupported t => subst hother; simp [supportedF] at hsup

theorem collectNS_fcons (m : FieldMeta) (v r : FVal) (ns : String) :
    collectNS (.fcons m v r) ns =
      (if m.canSet then
        match flagNameOf m with
        | none => []
        | some nm =>
          let newNS := if m.anon then ns else joinNS ns nm
          match v with
          | .leaf _ => [newNS]
          | .sub g => collectNS g newNS
          | .ptrRec t _ => collectNS t newNS
          | _ => []
      else []) ++ collectNS r ns := by
  rw [collectNS.eq_def]

/-- A successful zero walk registers exactly the record's namespaces, in walk
order, appended to the flags already present. -/
theorem regZero_names (fs : FlagSet) (f : FVal) (base : List Nat) (idx : Nat)
    (ns : String) :
    ∀ f' fs', regZero fs f base idx ns = (f', Except.ok fs') →
    fs'.map (fun d => d.name) = fs.map (fun d => d.name) ++ collectNS f ns := by
  induction fs, f, base, idx, ns using regZero.induct with
  | case1 fs base idx ns =>
    intro f' fs' h
    rw [regZero.eq_def] at h
    dsimp only at h
    injection h with h1 h2
    injection h2 with h2
    subst h2
    simp [collectNS]
  | case2 fs base idx ns m v rest hcs rest' res hsub ih =>
    intro f' fs' h
    rw [regZero.eq_def] at h
    simp only [hcs, if_true, hsub] at h
    injection h with h1 h2
    subst h2
    rw [ih rest' fs' hsub, collectNS_fcons, if_neg (by simp [hcs])]
    simp
  | case3 fs base idx ns m v rest hcs hfn rest' res hsub ih =>
    intro f' fs' h
    rw [regZero.eq_def] at h
    simp only [if_neg hcs, hfn, hsub] at h
    injection h with h1 h2
    subst h2
    rw [ih rest' fs' hsub]
    by_cases hcs2 : m.canSet = true
    · rw [collectNS_fcons, if_pos hcs2, hfn]
      simp
    · rw [collectNS_fcons, if_neg hcs2]
      simp
  | case4 fs base idx ns m rest hcs t hfn NS u e haf =>
    intro f' fs' h
    rw [regZero.eq_def] at h
    simp only [if_neg hcs, hfn, haf] at h
    injection h with h1 h2
    cases h2
  | case5 fs base idx ns m rest hcs t hfn NS u fs1 haf rest' res hsub ih =>
    intro f' fs' h
    rw [regZero.eq_def] at h
    simp only [if_neg hcs, hfn, haf, hsub] at h
    injection h with h1 h2
    subst h2
    obtain ⟨hnoflag, hfs1⟩ := addFlag_ok _ _ _ _ _ _ _ haf
    rw [ih rest' fs' hsub, hfs1, collectNS_fcons,
      if_pos (show m.canSet = true by simpa using hcs), hfn]
    simp
  | case6 fs base idx ns m rest hcs t hfn NS g g' e hgsub ih =>
    intro f' fs' h
    rw [regZero.eq_def] at h
    simp only [if_neg hcs, hfn, hgsub] at h
    injection h with h1 h2
    cases h2
  | case7 fs base idx ns m rest hcs t hfn NS g g' fs1 hgsub rest' res hsub ihg ihr =>
    intro f' fs' h
    rw [regZero.eq_def] at h
    simp only [if_neg hcs, hfn, hgsub, hsub] at h
    injection h with h1 h2
    subst h2
    rw [ihr rest' fs' hsub, ihg g' fs1 hgsub, collectNS_fcons,
      if_pos (show m.canSet = true by simpa using hcs), hfn]
    simp
  | case8 fs base idx ns m rest hcs t1 hfn NS t a g' e hgsub ih =>
    intro f' fs' h
    rw [regZero.eq_def] at h
    simp only [if_neg hcs, hfn, hgsub] at h
    injection h with h1 h2
    cases h2
  | case9 fs base idx ns m rest hcs t1 hfn NS t a g' fs1 hgsub rest' res hsub ihg ihr =>
    intro f' fs' h
    rw [regZero.eq_def] at h
    simp only [if_neg hcs, hfn, hgsub, hsub] at h
    injection h with h1 h2
    subst h2
    rw [ihr rest' fs' hsub, ihg g' fs1 hgsub, collectNS_fcons,
      if_pos (show m.canSet = true by simpa using hcs), hfn]
    simp
  | case10 fs base idx ns m rest hcs t hfn tn =>
    intro f' fs' h
    rw [regZero.eq_def] at h
    simp only [if_neg hcs, hfn] at h
    injection h with h1 h2
    cases h2
  | case11 fs base idx ns m rest hcs t hfn =>
    intro f' fs' h
    rw [regZero.eq_def] at h
    simp only [if_neg hcs, hfn] at h
    injection h with h1 h2
    cases h2
  | case12 fs base idx ns m rest hcs t hfn m2 v2 r2 =>
    intro f' fs' h
    rw [regZero.eq_def] at h
    simp only [if_neg hcs, hfn] at h
    injection h with h1 h2
    cases h2
  | case13 fs base idx ns other hx1 hx2 =>
    intro f' fs' h
    rw [regZero.eq_def] at h
    cases hother : other with
    | fnil => exact absurd hother hx1
    | fcons m v r => exact absurd hother (hx2 m v r)
    | leaf u => subst hother; dsimp only at h; injection h with h1 h2; cases h2
    | sub g => subst hother; dsimp only at h; injection h with h1 h2; cases h2
    | ptrRec g b => subst hother; dsimp only at h; injection h with h1 h2; cases h2
    | unsupported t => subst hother; dsimp only at h; injection h with h1 h2; cases h2

/-- A successful schema walk registers exactly the record's namespaces, in
walk order, appended to the flags already present. -/
theorem regFields_names (fs : FlagSet) (f : FVal) (base : List Nat) (idx : Nat)
    (ns : String) :
    ∀ f' fs', regFields fs f base idx ns = (f', Except.ok fs') →
    fs'.map (fun d => d.name) = fs.map (fun d => d.name) ++ collectNS f ns := by
  induction fs, f, base, idx, ns using regFields.induct with
  | case1 fs base idx ns =>
    intro f' fs' h
    rw [regFields.eq_def] at h
    dsimp only at h
    injection h with h1 h2
    injection h2 with h2
    subst h2
    simp [collectNS]
  | case2 fs base idx ns m v rest hcs rest' res hsub ih =>
    intro f' fs' h
    rw [regFields.eq_def] at h
    simp only [hcs, if_true, hsub] at h
    injection h with h1 h2
    subst h2
    rw [ih rest' fs' hsub, collectNS_fcons, if_neg (by simp [hcs])]
    simp
  | case3 fs base idx ns m v rest hcs hfn rest' res hsub ih =>
    intro f' fs' h
    rw [regFields.eq_def] at h
    simp only [if_neg hcs, hfn, hsub] at h
    injection h with h1 h2
    subst h2
    rw [ih rest' fs' hsub]
    by_cases hcs2 : m.canSet = true
    · rw [collectNS_fcons, if_pos hcs2, hfn]
      simp
    · rw [collectNS_fcons, if_neg hcs2]
      simp
  | case4 fs base idx ns m rest hcs t hfn NS u e haf =>
    intro f' fs' h
    rw [regFields.eq_def] at h
    simp only [if_neg hcs, hfn, haf] at h
    injection h with h1 h2
    cases h2
  | case5 fs base idx ns m rest hcs t hfn NS u fs1 haf rest' res hsub ih =>
    intro f' fs' h
    rw [regFields.eq_def] at h
    simp only [if_neg hcs, hfn, haf, hsub] at h
    injection h with h1 h2
    subst h2
    obtain ⟨hnoflag, hfs1⟩ := addFlag_ok _ _ _ _ _ _ _ haf
    rw [ih rest' fs' hsub, hfs1, collectNS_fcons,
      if_pos (show m.canSet = true by simpa using hcs), hfn]
    simp
  | case6 fs base idx ns m rest hcs t hfn NS g g' e hgsub ih =>
    intro f' fs' h
    rw [regFields.eq_def] at h
    simp only [if_neg hcs, hfn, hgsub] at h
    injection h with h1 h2
    cases h2
  | case7 fs base idx ns m rest hcs t hfn NS g g' fs1 hgsub rest' res hsub ihg ihr =>
    intro f' fs' h
    rw [regFields.eq_def] at h
    simp only [if_neg hcs, hfn, hgsub, hsub] at h
    injection h with h1 h2
    subst h2
    rw [ihr rest' fs' hsub, ihg g' fs1 hgsub, collectNS_fcons,
      if_pos (show m.canSet = true by simpa using hcs), hfn]
    simp
  | case8 fs base idx ns m rest hcs t1 hfn NS t g' e hgsub =>
    intro f' fs' h
    rw [regFields.eq_def] at h
    simp only [if_neg hcs, hfn, hgsub] at h
    injection h with h1 h2
    cases h2
  | case9 fs base idx ns m rest hcs t1 hfn NS t g' fs1 hgsub rest' res hsub ihr =>
    intro f' fs' h
    rw [regFields.eq_def] at h
    simp only [if_neg hcs, hfn, hgsub, hsub] at h
    injection h with h1 h2
    subst h2
    rw [ihr rest' fs' hsub, regZero_names fs t (base ++ [idx]) 0 NS g' fs1 hgsub,
      collectNS_fcons, if_pos (show m.canSet = true by simpa using hcs), hfn]
    simp
  | case10 fs base idx ns m rest hcs t1 hfn NS t g' e hgsub ih =>
    intro f' fs' h
    rw [regFields.eq_def] at h
    simp only [if_neg hcs, hfn, hgsub] at h
    injection h with h1 h2
    cases h2
  | case11 fs base idx ns m rest hcs t1 hfn NS t g' fs1 hgsub rest' res hsub ihg ihr =>
    intro f' fs' h
    rw [regFields.eq_def] at h
    simp only [if_neg hcs, hfn, hgsub, hsub] at h
    injection h with h1 h2
    subst h2
    rw [ihr rest' fs' hsub, ihg g' fs1 hgsub, collectNS_fcons,
      if_pos (show m.canSet = true by simpa using hcs), hfn]
    simp
  | case12 fs base idx ns m rest hcs t hfn tn =>
    intro f' fs' h
    rw [regFields.eq_def] at h
    simp only [if_neg hcs, hfn] at h
    injection h with h1 h2
    cases h2
  | case13 fs base idx ns m rest hcs t hfn =>
    intro f' fs' h
    rw [regFields.eq_def] at h
    simp only [if_neg hcs, hfn] at h
    injection h with h1 h2
    cases h2
  | case14 fs base idx ns m rest hcs t hfn m2 v2 r2 =>
    intro f' fs' h
    rw [regFields.eq_def] at h
    simp only [if_neg hcs, hfn] at h
    injection h with h1 h2
    cases h2
  | case15 fs base idx ns other hx1 hx2 =>
    intro f' fs' h
    rw [regFields.eq_def] at h
    cases hother : other with
    | fnil => exact absurd hother hx1
    | fcons m v r => exact absurd hother (hx2 m v r)
    | leaf u => subst hother; dsimp only at h; injection h with h1 h2; cases h2
    | sub g => subst hother; dsimp only at h; injection h with h1 h2; cases h2
    | ptrRec g b => subst hother; dsimp only at h; injection h with h1 h2; cases h2
    | unsupported t => subst hother; dsimp only at h; injection h with h1 h2; cases h2

set_option maxHeartbeats 4000000 in
theorem parseArgs_nil (fs : FlagSet) (r : FVal) :
    parseArgs fs r [] = (r, none) := by
  rw [parseArgs.eq_def]

set_option maxHeartbeats 4000000 in
theorem argAssigns_nil (fs : FlagSet) : argAssigns fs [] = [] := by
  rw [argAssigns.eq_def]

theorem lastAssign_cons (a : String × String) (l : List (String × String))
    (nm : String) :
    lastAssign (a :: l) nm =
      match lastAssign l nm with
      | some r => some r
      | none => if a.1 = nm then some a.2 else none := rfl

set_option maxHeartbeats 4000000 in
/-- One token of flagset.Parse: either parsing stops silently with no
assignment scanned, or it fails without touching the record, or the token
(possibly consuming its successor) assigns a raw value to a found flag, that
assignment heads the scanned assignment list, and the outcome follows the
flag's Set call on the current record. -/
theorem parseArgs_step (fs : FlagSet) (s : String) (rest : List String) (r : FVal) :
    (parseArgs fs r (s :: rest) = (r, none) ∧ argAssigns fs (s :: rest) = []) ∨
    (∃ e, parseArgs fs r (s :: rest) = (r, some e)) ∨
    (∃ nm raw d rest', rest'.length ≤ rest.length ∧
      findFlag fs nm = some d ∧
      argAssigns fs (s :: rest) = (nm, raw) :: argAssigns fs rest' ∧
      ((setFlagVal r d raw).2 = true →
        parseArgs fs r (s :: rest) = parseArgs fs (setFlagVal r d raw).1 rest') ∧
      ((setFlagVal r d raw).2 = false →
        parseArgs fs r (s :: rest) =
          ((setFlagVal r d raw).1, some (.invalidValue raw nm)))) := by
  rw [parseArgs.eq_def, argAssigns.eq_def]
  split
  · exact Or.inl ⟨rfl, rfl⟩
  · rename_i s2 rest2 heq
    injection heq with he1 he2
    subst he1
    subst he2
    split
    · rename_i c1 cr heq2
      try dsimp only
      by_cases hc1 : c1 = '-'
      · rw [if_pos hc1]
        try dsimp only
        cases cr with
        | nil => exact Or.inl ⟨rfl, rfl⟩
        | cons c2 cs =>
          try dsimp only
          by_cases hbad : c2 = '-' ∨ c2 = '='
          · rw [if_pos hbad, if_pos hbad]
            exact Or.inr (Or.inl ⟨_, rfl⟩)
          · rw [if_neg hbad, if_neg hbad]
            cases hfind : findFlag fs (splitNameValue (c2 :: cs)).1 with
            | none =>
              try dsimp only
              by_cases hhelp : (splitNameValue (c2 :: cs)).1 = "help" ∨
                  (splitNameValue (c2 :: cs)).1 = "h"
              · rw [if_pos hhelp]
                exact Or.inr (Or.inl ⟨_, rfl⟩)
              · rw [if_neg hhelp]
                exact Or.inr (Or.inl ⟨_, rfl⟩)
            | some d =>
              try dsimp only
              by_cases hbk : d.kind = FKind.kbool
              · rw [if_pos hbk, if_pos hbk]
                refine Or.inr (Or.inr ⟨(splitNameValue (c2 :: cs)).1,
                  ((splitNameValue (c2 :: cs)).2).getD "true", d, rest,
                  Nat.le_refl _, hfind, rfl, ?_, ?_⟩)
                · intro hok
                  rw [if_pos hok]
                · intro hok
                  rw [if_neg (by rw [hok]; exact Bool.false_ne_true)]
              · rw [if_neg hbk, if_neg hbk]
                cases hrv : (splitNameValue (c2 :: cs)).2 with
                | some raw =>
                  try dsimp only
                  refine Or.inr (Or.inr ⟨(splitNameValue (c2 :: cs)).1, raw, d,
                    rest, Nat.le_refl _, hfind, rfl, ?_, ?_⟩)
                  · intro hok
                    rw [if_pos hok]
                  · intro hok
                    rw [if_neg (by rw [hok]; exact Bool.false_ne_true)]
                | none =>
                  try dsimp only
                  cases rest with
                  | nil => exact Or.inr (Or.inl ⟨_, rfl⟩)
                  | cons v rest2 =>
                    try dsimp only
                    refine Or.inr (Or.inr ⟨(splitNameValue (c2 :: cs)).1, v, d,
                      rest2, Nat.le_succ _, hfind, rfl, ?_, ?_⟩)
                    · intro hok
                      rw [if_pos hok]
                    · intro hok
                      rw [if_neg (by rw [hok]; exact Bool.false_ne_true)]
      · rw [if_neg hc1]
        try dsimp only
        by_cases hbad : c1 = '-' ∨ c1 = '='
        · rw [if_pos hbad, if_pos hbad]
          exact Or.inr (Or.inl ⟨_, rfl⟩)
        · rw [if_neg hbad, if_neg hbad]
          cases hfind : findFlag fs (splitNameValue (c1 :: cr)).1 with
          | none =>
            try dsimp only
            by_cases hhelp : (splitNameValue (c1 :: cr)).1 = "help" ∨
                (splitNameValue (c1 :: cr)).1 = "h"
            · rw [if_pos hhelp]
              exact Or.inr (Or.inl ⟨_, rfl⟩)
            · rw [if_neg hhelp]
              exact Or.inr (Or.inl ⟨_, rfl⟩)
          | some d =>
            try dsimp only
            by_cases hbk : d.kind = FKind.kbool
            · rw [if_pos hbk, if_pos hbk]
              refine Or.inr (Or.inr ⟨(splitNameValue (c1 :: cr)).1,
                ((splitNameValue (c1 :: cr)).2).getD "true", d, rest,
                Nat.le_refl _, hfind, rfl, ?_, ?_⟩)
              · intro hok
                rw [if_pos hok]
              · intro hok
                rw [if_neg (by rw [hok]; exact Bool.false_ne_true)]
            · rw [if_neg hbk, if_neg hbk]
              cases hrv : (splitNameValue (c1 :: cr)).2 with
              | some raw =>
                try dsimp only
                refine Or.inr (Or.inr ⟨(splitNameValue (c1 :: cr)).1, raw, d,
                  rest, Nat.le_refl _, hfind, rfl, ?_, ?_⟩)
                · intro hok
                  rw [if_pos hok]
                · intro hok
                  rw [if_neg (by rw [hok]; exact Bool.false_ne_true)]
              | none =>
                try dsimp only
                cases rest with
                | nil => exact Or.inr (Or.inl ⟨_, rfl⟩)
                | cons v rest2 =>
                  try dsimp only
                  refine Or.inr (Or.inr ⟨(splitNameValue (c1 :: cr)).1, v, d,
                    rest2, Nat.le_succ _, hfind, rfl, ?_, ?_⟩)
                  · intro hok
                    rw [if_pos hok]
                  · intro hok
                    rw [if_neg (by rw [hok]; exact Bool.false_ne_true)]
    · exact Or.inl ⟨rfl, rfl⟩

/-- Helper: when every element parses, the appending loop of (*Ints).Set
appends all parsed elements and reports success. -/
theorem intsSetGo_append (l : List String) :
    ∀ cur vs, parseAllInts l = some vs → intsSetGo cur l = (cur ++ vs, true) := by
  induction l with
  | nil =>
    intro cur vs h
    simp [parseAllInts] at h
    simp [intsSetGo, ← h]
  | cons s l ih =>
    intro cur vs h
    cases hs : atoi s with
    | none => simp [parseAllInts, hs] at h
    | some i =>
      cases hl : parseAllInts l with
      | none => simp [parseAllInts, hs, hl] at h
      | some vs' =>
        simp [parseAllInts, hs, hl] at h
        simp [intsSetGo, hs, ih (cur ++ [i]) vs' hl, ← h]

/-- C9: for an argument string of comma-separated valid integers, Ints.Set
appends the parsed integers to the slice's existing contents (a non-empty
previous value is extended, not overwritten), whereas Strings.Set replaces
the whole slice, ignoring its previous contents. -/
theorem intsSet_appends_stringsSet_replaces
    (is : List Int) (ss : String) (vs : List Int)
    (h : parseAllInts (goSplit ss ',') = some vs) :
    IntsSet is ss = (is ++ vs, true) ∧
    (∀ prev s, StringsSet prev s = Except.ok (goSplit s ',')) := by
  refine ⟨?_, fun prev s => rfl⟩
  unfold IntsSet
  exact intsSetGo_append _ is vs h

/-- Witness for C9 at a concrete input: a previous value [5] extended by
"1,2" yields [5, 1, 2] (and Strings.Set with previous value ["x"] on "a,b"
yields ["a", "b"]). -/
theorem intsSet_appends_witness :
    IntsSet [5] "1,2" = ([5, 1, 2], true) ∧
    StringsSet ["x"] "a,b" = Except.ok ["a", "b"] := by
  have h := intsSet_appends_stringsSet_replaces [5] "1,2" [1, 2] (by decide)
  exact ⟨h.1, h.2 ["x"] "a,b"⟩

/-- C10: Strings.Set succeeds on every input string, and on the empty string
it produces the one-element slice containing the empty string, not the empty
slice. -/
theorem stringsSet_total_and_empty (prev : List String) (s : String) :
    (∃ l, StringsSet prev s = Except.ok l) ∧
    StringsSet prev "" = Except.ok [""] ∧ ([""] : List String) ≠ [] := by
  exact ⟨⟨goSplit s ',', rfl⟩, rfl, by decide⟩

/-- C1 counterexample: for the record struct { F Ints }, a file that sets
f = [1] and the argument token -f=2 bind successfully, and the leaf ends up
holding [1, 2]: the file value extended by the argument, not the
argument-supplied value [2] (which is what a fresh Set of "2" stores). Strict
per-leaf last-writer-wins fails on an Ints leaf set by both layers. -/
theorem intsLeaf_breaks_lastWriterWins :
    ParseStrings ["test", "-f=2"] (.doc [⟨["f"], .vints [1]⟩]) cfgInts false =
      (.fcons (plainField "F") (.leaf (.vints [1, 2])) .fnil, none) ∧
    IntsSet [] "2" = ([2], true) ∧
    Val.vints [1, 2] ≠ Val.vints [2] := by
  exact ⟨rfl, rfl, by decide⟩

/-- C2 counterexample: for the record struct { F1 int `flag:"-"` } whose only
field carries the exclusion sentinel, a file supplying the matching key f1 = 3
still overwrites the field (the exclusion tag only hides the field from the
argument layer; the TOML decoder matches by field name unless a toml tag also
excludes it), so the bind call does alter the excluded field. -/
theorem excludedField_altered_by_file :
    ParseStrings ["test"] (.doc [⟨["f1"], .vint 3⟩]) cfgExcl false =
      (.fcons ⟨"F1", some "-", none, none, false, true⟩ (.leaf (.vint 3)) .fnil,
       none) ∧
    fgetIdx cfgExcl 0 =
      some (⟨"F1", some "-", none, none, false, true⟩, .leaf (.vint 0)) ∧
    Val.vint 3 ≠ Val.vint 0 := by
  exact ⟨rfl, rfl, by decide⟩

/-- C3 counterexample: for struct { F1 int; F2 int } with an empty file, the
arguments ["-f2=7", "-f1=NaN"] fail on the second token with a FlagError, yet
F2 holds 7 — the write from the token preceding the malformed one was applied
— while the record after the file layer still had F2 = 0. The record is not
"exactly as it was after the file layer". -/
theorem earlier_token_write_persists_on_argError :
    ParseStrings ["test", "-f2=7", "-f1=NaN"] (.doc []) cfgTwo false =
      (.fcons (plainField "F1") (.leaf (.vint 0))
        (.fcons (plainField "F2") (.leaf (.vint 7)) .fnil),
       some (.flagErr (.invalidValue "NaN" "f1")
         "Usage of test:\n-f1=0: (int flag, no description given)\n-f2=0: (int flag, no description given)")) ∧
    decodeFile (.doc []) cfgTwo = (cfgTwo, none) ∧
    fgetIdx cfgTwo 1 = some (plainField "F2", .leaf (.vint 0)) ∧
    Val.vint 7 ≠ Val.vint 0 := by
  exact ⟨by decide, rfl, rfl, by decide⟩

/-- C4 counterexample: for struct { F1 int; F2 int `flag:"f1"` } the schema
walk computes the namespace "f1" for both leaf fields, and the bind call ends
in the flag package's "flag redefined" panic — the process aborts — rather
than returning the SchemaError result reserved for unsupported field types. -/
theorem duplicate_namespace_panics_not_schemaError :
    ParseStrings ["test"] (.doc []) cfgDup false =
      (cfgDup, some (.dupFlagPanic "f1")) ∧
    isSchemaErr (some (.dupFlagPanic "f1")) = false ∧
    isSchemaErr (some (.schemaErr "time.Duration")) = true := by
  exact ⟨rfl, rfl, rfl⟩

/-- C6: when the walk succeeds, a bind call whose file does not exist fails
with the file-absence error when allowNoConfigFile is false, proceeds straight
to the argument layer when allowNoConfigFile is true, and any decode failure
other than file absence is returned no matter the value of allowNoConfigFile. -/
theorem missingFile_respects_allowNoConfigFile
    (prog : String) (argv : List String) (config c1 : FVal) (fs : FlagSet)
    (hstruct : isStructF config = true)
    (hreg : regFields [] config [] 0 "" = (c1, .ok fs)) :
    ParseStrings (prog :: argv) .absent config false = (c1, some .fileNotExist) ∧
    ParseStrings (prog :: argv) .absent config true = runArgs fs c1 prog argv ∧
    (∀ file c2 er, decodeFile file c1 = (c2, some er) → er ≠ .fileNotExist →
      ∀ allow, ParseStrings (prog :: argv) file config allow = (c2, some er)) := by
  refine ⟨?_, ?_, ?_⟩
  · simp [ParseStrings, hstruct, hreg, decodeFile]
  · simp [ParseStrings, hstruct, hreg, decodeFile]
  · intro file c2 er hdec hne allow
    simp only [ParseStrings, hstruct, Bool.true_eq_false, if_false, hreg]
    rw [hdec]
    cases er with
    | fileNotExist => exact absurd rfl hne
    | emptyArgs => rfl
    | notStructPtr => rfl
    | schemaErr tn => rfl
    | dupFlagPanic nm => rfl
    | fileMalformed => rfl
    | fileTypeErr => rfl
    | flagErr fe us => rfl

/-- Witness for C6 at the record struct { F1 int } defaulted to 5: a missing
file errors without allowNoConfigFile, binds silently (keeping the default)
with it, and a malformed file errors regardless. -/
theorem missingFile_respects_allowNoConfigFile_witness :
    ParseStrings ["p"] .absent (cfgSimple 5) false =
      (cfgSimple 5, some .fileNotExist) ∧
    ParseStrings ["p"] .absent (cfgSimple 5) true = (cfgSimple 5, none) ∧
    ParseStrings ["p"] .malformed (cfgSimple 5) true =
      (cfgSimple 5, some .fileMalformed) := by
  have h := missingFile_respects_allowNoConfigFile "p" [] (cfgSimple 5)
    (cfgSimple 5)
    [⟨"f1", .kint, [0], "(int flag, no description given)", .vint 5⟩] rfl rfl
  exact ⟨h.1, h.2.1.trans rfl, h.2.2 .malformed (cfgSimple 5) .fileMalformed rfl
    (by decide) true⟩

/-- C5: when the walk succeeds and decoding the file's entries fails with a
type mismatch, the bind call returns that failure with the record as the
partial decode left it, and the argument list beyond the program name plays no
role at all — the same outcome results for every argument tail. -/
theorem fileTypeMismatch_aborts_before_args
    (prog : String) (argv : List String) (config c1 c2 : FVal) (fs : FlagSet)
    (allow : Bool) (es : List TomlEntry)
    (hstruct : isStructF config = true)
    (hreg : regFields [] config [] 0 "" = (c1, .ok fs))
    (hdec : decodeDoc c1 es = (c2, some .fileTypeErr)) :
    ParseStrings (prog :: argv) (.doc es) config allow = (c2, some .fileTypeErr) ∧
    (∀ argv', ParseStrings (prog :: argv) (.doc es) config allow =
      ParseStrings (prog :: argv') (.doc es) config allow) := by
  have key : ∀ a : List String,
      ParseStrings (prog :: a) (.doc es) config allow = (c2, some .fileTypeErr) := by
    intro a
    simp only [ParseStrings, hstruct, Bool.true_eq_false, if_false, hreg]
    simp only [decodeFile]
    rw [hdec]
  exact ⟨key argv, fun argv' => (key argv).trans (key argv').symm⟩

/-- Witness for C5: struct { F1 int } with the file entry f1 = "a" (a string
where an integer is expected) errors identically with and without argument
tokens, leaving the default in place. -/
theorem fileTypeMismatch_aborts_before_args_witness :
    ParseStrings ["t", "-f1=1"] (.doc [⟨["f1"], .vstr "a"⟩]) (cfgSimple 0) false =
      (cfgSimple 0, some .fileTypeErr) ∧
    ParseStrings ["t", "-f1=1"] (.doc [⟨["f1"], .vstr "a"⟩]) (cfgSimple 0) false =
      ParseStrings ["t"] (.doc [⟨["f1"], .vstr "a"⟩]) (cfgSimple 0) false := by
  have h := fileTypeMismatch_aborts_before_args "t" ["-f1=1"] (cfgSimple 0)
    (cfgSimple 0) (cfgSimple 0)
    [⟨"f1", .kint, [0], "(int flag, no description given)", .vint 0⟩]
    false [⟨["f1"], .vstr "a"⟩] rfl rfl rfl
  exact ⟨h.1, h.2 []⟩

end Flagconf
